import Mathlib

/-!
Verification of the binary search tree in `go/tree/tree.go` of the
repository.  The Go code manipulates heap-allocated nodes through
pointers (`Key`, `Parent`, `Left`, `Right`); we embed it shallowly as a
store of node records addressed by allocation ids (`Nat`), together with
an allocation counter and a root pointer.  Every operation of the source
is translated instruction by instruction; loops over pointers become
fuel-indexed recursions (the public wrappers pass fuel `next + 1`, which
is enough for any store whose reachable nodes are distinct).  A result of
`none` models a run that the Go program cannot complete normally (a nil
dereference, or a cyclic store exhausting the fuel).
-/

namespace BSTGo

/-- A node record: `Key`, `Parent`, `Left`, `Right` of `tree.go`.
Pointers are ids; `none` is Go's `nil`. -/
structure GNode where
  key : Int
  parent : Option Nat
  left : Option Nat
  right : Option Nat
deriving DecidableEq, Repr

/-- The mutable heap: node records addressed by allocation id. -/
def Store := Nat → Option GNode

/-- Store update at one id. -/
def upd (m : Store) (i : Nat) (v : GNode) : Store :=
  fun j => if j = i then some v else m j

/-- `BinaryTree` of the source together with the allocation state:
`mem` is the heap, `next` the next fresh id, `root` the `Root` field. -/
structure BT where
  mem : Store
  next : Nat
  root : Option Nat

/-- The empty tree (`BinaryTree{}`). -/
def emptyBT : BT := ⟨fun _ => none, 0, none⟩

@[simp] theorem upd_same (m : Store) (i : Nat) (v : GNode) : upd m i v i = some v := by
  simp [upd]

theorem upd_ne (m : Store) (i j : Nat) (v : GNode) (h : j ≠ i) : upd m i v j = m j := by
  simp [upd, h]

/-- The descent loop of `Insert`: `for c := b.Root; c != nil; { parent = c;
if key < c.Key { c = c.Left } else { c = c.Right } }`; returns the final
`parent`. -/
def insertLoop (m : Store) (key : Int) : Nat → Option Nat → Option Nat → Option (Option Nat)
  | _, none, par => some par
  | 0, some _, _ => none
  | fuel+1, some i, _ =>
    match m i with
    | none => none
    | some n => insertLoop m key fuel (if key < n.key then n.left else n.right) (some i)

/-- `Insert` of `tree.go`: descend to record the attach parent, allocate a
fresh node with that parent, then either make it the root or hang it on
the side chosen by `parent.Key > n.Key`. -/
def insertOp (t : BT) (key : Int) : Option BT :=
  match insertLoop t.mem key (t.next + 1) t.root none with
  | none => none
  | some pOpt =>
    let nid := t.next
    match pOpt with
    | none => some ⟨upd t.mem nid ⟨key, none, none, none⟩, t.next + 1, some nid⟩
    | some p =>
      match t.mem p with
      | none => none
      | some pn =>
        let m1 := upd t.mem nid ⟨key, some p, none, none⟩
        if pn.key > key then some ⟨upd m1 p { pn with left := some nid }, t.next + 1, t.root⟩
        else some ⟨upd m1 p { pn with right := some nid }, t.next + 1, t.root⟩

/-- The loop of `Search`: `for n != nil && n.Key != key { ... }`. -/
def searchLoop (m : Store) (key : Int) : Nat → Option Nat → Option (Option Nat)
  | _, none => some none
  | 0, some _ => none
  | fuel+1, some i =>
    match m i with
    | none => none
    | some n =>
      if n.key = key then some (some i)
      else searchLoop m key fuel (if key < n.key then n.left else n.right)

/-- `Search` of `tree.go`. -/
def searchOp (t : BT) (key : Int) : Option (Option Nat) :=
  searchLoop t.mem key (t.next + 1) t.root

/-- The inner closure of `RecursiveSearch`: `if n == nil || n.Key == key
{ return n } else if k < n.Key { return rec(n.Left, k) } else
{ return rec(n.Right, k) }`. -/
def recSearchLoop (m : Store) (key : Int) : Nat → Option Nat → Option (Option Nat)
  | _, none => some none
  | 0, some _ => none
  | fuel+1, some i =>
    match m i with
    | none => none
    | some n =>
      if n.key = key then some (some i)
      else if key < n.key then recSearchLoop m key fuel n.left
      else recSearchLoop m key fuel n.right

/-- `RecursiveSearch` of `tree.go`. -/
def recSearchOp (t : BT) (key : Int) : Option (Option Nat) :=
  recSearchLoop t.mem key (t.next + 1) t.root

/-- `Node.min`: `for ; n != nil && n.Left != nil; n = n.Left {}`. -/
def minLoop (m : Store) : Nat → Option Nat → Option (Option Nat)
  | _, none => some none
  | 0, some _ => none
  | fuel+1, some i =>
    match m i with
    | none => none
    | some n =>
      match n.left with
      | none => some (some i)
      | some l => minLoop m fuel (some l)

/-- `Node.max`: `for ; n != nil && n.Right != nil; n = n.Right {}`. -/
def maxLoop (m : Store) : Nat → Option Nat → Option (Option Nat)
  | _, none => some none
  | 0, some _ => none
  | fuel+1, some i =>
    match m i with
    | none => none
    | some n =>
      match n.right with
      | none => some (some i)
      | some r => maxLoop m fuel (some r)

/-- `BinaryTree.Min`. -/
def minOp (t : BT) : Option (Option Nat) := minLoop t.mem (t.next + 1) t.root

/-- `BinaryTree.Max`. -/
def maxOp (t : BT) : Option (Option Nat) := maxLoop t.mem (t.next + 1) t.root

/-- The climb loop of `Succ`: `y := n.Parent; for y != nil && n == y.Right
{ n = y; y = y.Parent }; return y`. -/
def climbSucc (m : Store) : Nat → Nat → Option Nat → Option (Option Nat)
  | _, _, none => some none
  | 0, _, some _ => none
  | fuel+1, nid, some yid =>
    match m yid with
    | none => none
    | some y => if y.right = some nid then climbSucc m fuel yid y.parent else some (some yid)

/-- The climb loop of `Pred`: mirror of `climbSucc` over `Left`. -/
def climbPred (m : Store) : Nat → Nat → Option Nat → Option (Option Nat)
  | _, _, none => some none
  | 0, _, some _ => none
  | fuel+1, nid, some yid =>
    match m yid with
    | none => none
    | some y => if y.left = some nid then climbPred m fuel yid y.parent else some (some yid)

/-- `Succ` of `tree.go`.  When `n.Right != nil` the source returns
`n.min()` — the minimum of the subtree rooted at `n` itself, the receiver
being `n`, not `n.Right` — and we translate exactly that expression. -/
def succOp (t : BT) (k : Int) : Option (Option Nat) :=
  match searchLoop t.mem k (t.next + 1) t.root with
  | none => none
  | some none => some none
  | some (some nid) =>
    match t.mem nid with
    | none => none
    | some n =>
      match n.right with
      | some _ => minLoop t.mem (t.next + 1) (some nid)
      | none => climbSucc t.mem (t.next + 1) nid n.parent

/-- `Pred` of `tree.go`.  When `n.Left != nil` the source returns
`n.max()` (receiver `n`, not `n.Left`); translated exactly. -/
def predOp (t : BT) (k : Int) : Option (Option Nat) :=
  match searchLoop t.mem k (t.next + 1) t.root with
  | none => none
  | some none => some none
  | some (some nid) =>
    match t.mem nid with
    | none => none
    | some n =>
      match n.left with
      | some _ => maxLoop t.mem (t.next + 1) (some nid)
      | none => climbPred t.mem (t.next + 1) nid n.parent

/-- `transplant` of `tree.go`: rewire `u`'s parent slot (or the root) to
`v`, then set `v.Parent` when `v` is present. -/
def transplantOp (t : BT) (u : Nat) (v : Option Nat) : Option BT :=
  match t.mem u with
  | none => none
  | some un =>
    let step1 : Option BT :=
      match un.parent with
      | none => some { t with root := v }
      | some p =>
        match t.mem p with
        | none => none
        | some pn =>
          if pn.left = some u then some { t with mem := upd t.mem p { pn with left := v } }
          else some { t with mem := upd t.mem p { pn with right := v } }
    match step1 with
    | none => none
    | some t2 =>
      match v with
      | none => some t2
      | some vid =>
        match t2.mem vid with
        | none => none
        | some vn => some { t2 with mem := upd t2.mem vid { vn with parent := un.parent } }

/-- The body of `Delete` after `n := b.Search(k)` succeeded with node id
`nid`; every field is re-read from the current heap at the program point
where the Go statement reads it. -/
def deleteAt (t : BT) (nid : Nat) : Option BT :=
  match t.mem nid with
  | none => none
  | some n =>
    match n.left, n.right with
    | none, _ => transplantOp t nid n.right
    | some _, none => transplantOp t nid n.left
    | some _, some rid =>
      match minLoop t.mem (t.next + 1) (some rid) with
      | some (some yid) =>
        match t.mem yid with
        | none => none
        | some y =>
          let step1 : Option BT :=
            if y.parent ≠ some nid then
              match transplantOp t yid y.right with
              | none => none
              | some t1 =>
                match t1.mem nid, t1.mem yid with
                | some n1, some y1 =>
                  let t2 : BT := { t1 with mem := upd t1.mem yid { y1 with right := n1.right } }
                  match n1.right with
                  | none => none
                  | some rr =>
                    match t2.mem rr with
                    | none => none
                    | some rrn =>
                      some { t2 with mem := upd t2.mem rr { rrn with parent := some yid } }
                | _, _ => none
            else some t
          match step1 with
          | none => none
          | some t3 =>
            match transplantOp t3 nid (some yid) with
            | none => none
            | some t4 =>
              match t4.mem nid, t4.mem yid with
              | some n4, some y4 =>
                let t5 : BT := { t4 with mem := upd t4.mem yid { y4 with left := n4.left } }
                match n4.left with
                | none => none
                | some ll =>
                  match t5.mem ll with
                  | none => none
                  | some lln =>
                    some { t5 with mem := upd t5.mem ll { lln with parent := some yid } }
              | _, _ => none
      | _ => none

/-- `Delete` of `tree.go`.  `n := b.Search(k)` is followed, without a nil
check, by `n.Left`; a search miss therefore dereferences a nil pointer,
which we model as `none`. -/
def deleteOp (t : BT) (k : Int) : Option BT :=
  match searchLoop t.mem k (t.next + 1) t.root with
  | none => none
  | some none => none
  | some (some nid) => deleteAt t nid

/-- The `inorder` walk of `tree.go` (left, self, right), fuelled. -/
def inorderF (m : Store) : Nat → Option Nat → Option (List Int)
  | _, none => some []
  | 0, some _ => none
  | fuel+1, some i =>
    match m i with
    | none => none
    | some n =>
      match inorderF m fuel n.left, inorderF m fuel n.right with
      | some l, some r => some (l ++ n.key :: r)
      | _, _ => none

/-- The `preOrder` walk of `tree.go` (self, left, right), fuelled. -/
def preorderF (m : Store) : Nat → Option Nat → Option (List Int)
  | _, none => some []
  | 0, some _ => none
  | fuel+1, some i =>
    match m i with
    | none => none
    | some n =>
      match preorderF m fuel n.left, preorderF m fuel n.right with
      | some l, some r => some (n.key :: (l ++ r))
      | _, _ => none

/-- The `postOrder` walk of `tree.go` (left, right, self), fuelled. -/
def postorderF (m : Store) : Nat → Option Nat → Option (List Int)
  | _, none => some []
  | 0, some _ => none
  | fuel+1, some i =>
    match m i with
    | none => none
    | some n =>
      match postorderF m fuel n.left, postorderF m fuel n.right with
      | some l, some r => some (l ++ r ++ [n.key])
      | _, _ => none

/-- Pre-order walk collecting node ids instead of keys (used to state
reachability and parent-consistency claims). -/
def preIdsF (m : Store) : Nat → Option Nat → Option (List Nat)
  | _, none => some []
  | 0, some _ => none
  | fuel+1, some i =>
    match m i with
    | none => none
    | some n =>
      match preIdsF m fuel n.left, preIdsF m fuel n.right with
      | some l, some r => some (i :: (l ++ r))
      | _, _ => none

/-- `InOrderWalk`. -/
def inorderW (t : BT) : Option (List Int) := inorderF t.mem (t.next + 1) t.root

/-- `PreOrderWalk`. -/
def preorderW (t : BT) : Option (List Int) := preorderF t.mem (t.next + 1) t.root

/-- `PostOrderWalk`. -/
def postorderW (t : BT) : Option (List Int) := postorderF t.mem (t.next + 1) t.root

/-- One public mutating call: `Insert key` or `Delete key`. -/
inductive Op where
  | ins (key : Int) : Op
  | del (key : Int) : Op
deriving DecidableEq, Repr

/-- Apply one mutating call. -/
def applyOp (t : BT) : Op → Option BT
  | .ins k => insertOp t k
  | .del k => deleteOp t k

/-- Run a call sequence left to right; `none` as soon as one call cannot
complete (a `Delete` of an absent key dereferences nil). -/
def runOps (t : BT) : List Op → Option BT
  | [] => some t
  | op :: rest =>
    match applyOp t op with
    | none => none
    | some t' => runOps t' rest

end BSTGo

namespace BSTGo

/-!
Abstraction layer: the finite trees that well-formed heaps encode.  An
`ITree` node carries the id of the heap record it stands for, so that the
representation predicate `Rep` can also express parent consistency,
absence of sharing, and acyclicity of the pointer structure.
-/

/-- Inductive image of a heap-allocated subtree: each node remembers its
heap id and key. -/
inductive ITree where
  | leaf : ITree
  | node (id : Nat) (key : Int) (l r : ITree) : ITree
deriving DecidableEq, Repr

namespace ITree

/-- Id of the root record, Go's pointer to the subtree. -/
def rootIdO : ITree → Option Nat
  | leaf => none
  | node i _ _ _ => some i

/-- In-order list of ids. -/
def ids : ITree → List Nat
  | leaf => []
  | node i _ l r => ids l ++ i :: ids r

/-- In-order list of keys. -/
def keysOf : ITree → List Int
  | leaf => []
  | node _ k l r => keysOf l ++ k :: keysOf r

/-- Pre-order list of ids. -/
def preIds : ITree → List Nat
  | leaf => []
  | node i _ l r => i :: (preIds l ++ preIds r)

/-- Number of nodes. -/
def size (T : ITree) : Nat := (ids T).length

/-- The BST ordering invariant of §3 of the spec: keys on the left are
strictly smaller, keys on the right are greater or equal. -/
def IsBST : ITree → Prop
  | leaf => True
  | node _ k l r =>
      (∀ x ∈ keysOf l, x < k) ∧ (∀ x ∈ keysOf r, k ≤ x) ∧ IsBST l ∧ IsBST r

/-- Abstract image of the `Search` descent: first key match on the
comparison path. -/
def searchAbs (key : Int) : ITree → Option Nat
  | leaf => none
  | node i k l r =>
      if k = key then some i
      else if key < k then searchAbs key l
      else searchAbs key r

/-- Abstract image of `Insert`'s attach: descend with `key < k` (ties go
right) and graft a fresh leaf with id `nid`. -/
def insertAbs (key : Int) (nid : Nat) : ITree → ITree
  | leaf => node nid key leaf leaf
  | node i k l r =>
      if key < k then node i k (insertAbs key nid l) r
      else node i k l (insertAbs key nid r)

/-- Parent recorded by `Insert`'s descent loop: the last node visited. -/
def attachPt (key : Int) : ITree → Option Nat → Option Nat
  | leaf, par => par
  | node i k l r, _ =>
      if key < k then attachPt key l (some i) else attachPt key r (some i)

/-- Id of the leftmost node (`subtreeMin`); `none` on a leaf. -/
def lmId : ITree → Option Nat
  | leaf => none
  | node i _ leaf _ => some i
  | node _ _ (node j kj a b) _ => lmId (node j kj a b)

/-- Key of the leftmost node. -/
def lmKey : ITree → Option Int
  | leaf => none
  | node _ k leaf _ => some k
  | node _ _ (node j kj a b) _ => lmKey (node j kj a b)

/-- Remove the leftmost node, keeping the rest of the subtree in place. -/
def removeLeftmost : ITree → ITree
  | leaf => leaf
  | node _ _ leaf r => r
  | node i k (node j kj a b) r => node i k (removeLeftmost (node j kj a b)) r

/-- Effect of `Delete` at the located node: the three cases of the
source (`n.Left == nil`, `n.Right == nil`, both children present with the
successor `y = subtreeMin(n.Right)` spliced in). -/
def deleteAtNode : ITree → ITree
  | leaf => leaf
  | node _ _ leaf r => r
  | node _ _ (node j kj a b) leaf => node j kj a b
  | node _ _ (node j kj a b) (node i2 k2 l2 r2) =>
      match lmId (node i2 k2 l2 r2), lmKey (node i2 k2 l2 r2) with
      | some yid, some yk =>
          node yid yk (node j kj a b) (removeLeftmost (node i2 k2 l2 r2))
      | _, _ => leaf

/-- Abstract image of `Delete`: follow the search path, apply
`deleteAtNode` at the first key match. -/
def deleteAbs (key : Int) : ITree → ITree
  | leaf => leaf
  | node i k l r =>
      if k = key then deleteAtNode (node i k l r)
      else if key < k then node i k (deleteAbs key l) r
      else node i k l (deleteAbs key r)

end ITree

open ITree

/-- Representation predicate: the heap `m` stores, at the ids recorded in
`T`, exactly the records of a tree shaped like `T` whose root record's
`Parent` field is `p`. -/
inductive Rep (m : Store) : Option Nat → ITree → Prop
  | leaf (p : Option Nat) : Rep m p .leaf
  | node (p : Option Nat) (i : Nat) (k : Int) (tl tr : ITree)
      (hrec : m i = some ⟨k, p, rootIdO tl, rootIdO tr⟩)
      (hl : Rep m (some i) tl) (hr : Rep m (some i) tr) :
      Rep m p (.node i k tl tr)

/-- Full well-formedness of a tree state: the heap's reachable part is a
tree `T` with distinct ids that are all live allocations, and the key
layout satisfies the BST invariant. -/
def WFT (t : BT) (T : ITree) : Prop :=
  t.root = rootIdO T ∧ Rep t.mem none T ∧ (ids T).Nodup ∧
    (∀ i ∈ ids T, i < t.next) ∧ IsBST T

end BSTGo

namespace BSTGo

open ITree

theorem size_leaf : size .leaf = 0 := rfl

theorem size_node (i : Nat) (k : Int) (l r : ITree) :
    size (.node i k l r) = size l + size r + 1 := by
  simp [size, ids]; omega

theorem mem_ids_node {j i : Nat} {k : Int} {l r : ITree} :
    j ∈ ids (.node i k l r) ↔ j ∈ ids l ∨ j = i ∨ j ∈ ids r := by
  simp [ids]

theorem nodup_node_iff {i : Nat} {k : Int} {l r : ITree} :
    (ids (.node i k l r)).Nodup ↔
      (ids l).Nodup ∧ (ids r).Nodup ∧ i ∉ ids l ∧ i ∉ ids r ∧
        ∀ j ∈ ids l, j ∉ ids r := by
  show (ids l ++ i :: ids r).Nodup ↔ _
  rw [List.nodup_append]
  constructor
  · rintro ⟨h1, h2, h3⟩
    rw [List.nodup_cons] at h2
    rw [List.disjoint_cons_right] at h3
    exact ⟨h1, h2.2, h3.1, h2.1, fun j hj hjr => h3.2 hj hjr⟩
  · rintro ⟨h1, h2, h3, h4, h5⟩
    refine ⟨h1, List.nodup_cons.2 ⟨h4, h2⟩, List.disjoint_cons_right.2 ⟨h3, ?_⟩⟩
    intro a ha har
    exact h5 a ha har

/-- A heap that agrees with `m` on the ids of `T` represents `T` as well. -/
theorem Rep.frame {m m' : Store} {p : Option Nat} {T : ITree}
    (h : Rep m p T) (hag : ∀ i ∈ ids T, m' i = m i) : Rep m' p T := by
  induction h with
  | leaf p => exact .leaf p
  | node p i k tl tr hrec hl hr ihl ihr =>
      refine .node p i k tl tr ?_ ?_ ?_
      · rw [hag i (by simp [mem_ids_node])]; exact hrec
      · exact ihl fun j hj => hag j (by simp [mem_ids_node, hj])
      · exact ihr fun j hj => hag j (by simp [mem_ids_node, hj])

/-- Every id recorded in a represented tree is allocated. -/
theorem Rep.mem_of_ids {m : Store} {p : Option Nat} {T : ITree}
    (h : Rep m p T) {i : Nat} (hi : i ∈ ids T) : ∃ n, m i = some n := by
  induction h with
  | leaf p => simp [ids] at hi
  | node p j k tl tr hrec hl hr ihl ihr =>
      rcases mem_ids_node.1 hi with h1 | h1 | h1
      · exact ihl h1
      · exact ⟨_, h1 ▸ hrec⟩
      · exact ihr h1

/-- Rewriting only the `Parent` field of the root record moves a
represented subtree under a new parent. -/
theorem Rep.reparent {m : Store} {p q : Option Nat} {i : Nat} {k : Int} {tl tr : ITree}
    (h : Rep m p (.node i k tl tr)) (hnd : (ids (.node i k tl tr)).Nodup) :
    Rep (upd m i ⟨k, q, rootIdO tl, rootIdO tr⟩) q (.node i k tl tr) := by
  rcases nodup_node_iff.1 hnd with ⟨-, -, hil, hir, -⟩
  cases h with
  | node _ _ _ _ _ hrec hl hr =>
      refine .node q i k tl tr (upd_same _ _ _) ?_ ?_
      · exact hl.frame fun j hj => upd_ne _ _ _ _ (fun e => hil (e ▸ hj))
      · exact hr.frame fun j hj => upd_ne _ _ _ _ (fun e => hir (e ▸ hj))

/-- Distinct ids below a bound give a size bound (fuel sufficiency). -/
theorem size_le_of_nodup_lt {T : ITree} {n : Nat}
    (hnd : (ids T).Nodup) (hlt : ∀ i ∈ ids T, i < n) : size T ≤ n := by
  have h1 : (ids T).toFinset.card = (ids T).length := List.toFinset_card_of_nodup hnd
  have h2 : (ids T).toFinset ⊆ Finset.range n := by
    intro i hi
    simp only [List.mem_toFinset] at hi
    exact Finset.mem_range.2 (hlt i hi)
  have h3 := Finset.card_le_card h2
  rw [h1, Finset.card_range] at h3
  exact h3

/-- `Search`'s loop computes `searchAbs` on any represented subtree. -/
theorem searchLoop_sim {m : Store} (key : Int) :
    ∀ (T : ITree) (p : Option Nat) (fuel : Nat), Rep m p T → size T < fuel →
      searchLoop m key fuel (rootIdO T) = some (searchAbs key T) := by
  intro T
  induction T with
  | leaf =>
      intro p fuel _ _
      cases fuel <;> simp [searchLoop, rootIdO, searchAbs]
  | node i k l r ihl ihr =>
      intro p fuel hrep hfuel
      cases hrep with
      | node _ _ _ _ _ hrec hl hr =>
          rw [size_node] at hfuel
          obtain ⟨f, rfl⟩ : ∃ f, fuel = f + 1 := ⟨fuel - 1, by omega⟩
          simp only [rootIdO, searchLoop, hrec, searchAbs]
          by_cases hk : k = key
          · simp [hk]
          · simp only [if_neg hk]
            by_cases hlt : key < k
            · simp only [if_pos hlt]
              exact ihl (some i) f hl (by omega)
            · simp only [if_neg hlt]
              exact ihr (some i) f hr (by omega)

/-- `min`'s loop finds the leftmost node of a represented subtree. -/
theorem minLoop_sim {m : Store} :
    ∀ (T : ITree) (p : Option Nat) (fuel : Nat), Rep m p T → size T < fuel →
      minLoop m fuel (rootIdO T) = some (lmId T) := by
  intro T
  induction T with
  | leaf =>
      intro p fuel _ _
      cases fuel <;> simp [minLoop, rootIdO, lmId]
  | node i k l r ihl ihr =>
      intro p fuel hrep hfuel
      cases hrep with
      | node _ _ _ _ _ hrec hl hr =>
          rw [size_node] at hfuel
          obtain ⟨f, rfl⟩ : ∃ f, fuel = f + 1 := ⟨fuel - 1, by omega⟩
          cases l with
          | leaf => simp [minLoop, rootIdO, hrec, lmId]
          | node j kj a b =>
              have := ihl (some i) f hl (by rw [size_node] at hfuel ⊢; omega)
              simp only [rootIdO, minLoop, hrec, lmId]
              exact this

/-- `Insert`'s descent loop records the attach parent. -/
theorem insertLoop_sim {m : Store} (key : Int) :
    ∀ (T : ITree) (p : Option Nat) (fuel : Nat) (par : Option Nat),
      Rep m p T → size T < fuel →
      insertLoop m key fuel (rootIdO T) par = some (attachPt key T par) := by
  intro T
  induction T with
  | leaf =>
      intro p fuel par _ _
      cases fuel <;> simp [insertLoop, rootIdO, attachPt]
  | node i k l r ihl ihr =>
      intro p fuel par hrep hfuel
      cases hrep with
      | node _ _ _ _ _ hrec hl hr =>
          rw [size_node] at hfuel
          obtain ⟨f, rfl⟩ : ∃ f, fuel = f + 1 := ⟨fuel - 1, by omega⟩
          simp only [rootIdO, insertLoop, hrec, attachPt]
          by_cases hlt : key < k
          · simp only [if_pos hlt]
            exact ihl (some i) f (some i) hl (by omega)
          · simp only [if_neg hlt]
            exact ihr (some i) f (some i) hr (by omega)

/-- The in-order walk returns the in-order keys of a represented subtree. -/
theorem inorderF_sim {m : Store} :
    ∀ (T : ITree) (p : Option Nat) (fuel : Nat), Rep m p T → size T < fuel →
      inorderF m fuel (rootIdO T) = some (keysOf T) := by
  intro T
  induction T with
  | leaf =>
      intro p fuel _ _
      cases fuel <;> simp [inorderF, rootIdO, keysOf]
  | node i k l r ihl ihr =>
      intro p fuel hrep hfuel
      cases hrep with
      | node _ _ _ _ _ hrec hl hr =>
          rw [size_node] at hfuel
          obtain ⟨f, rfl⟩ : ∃ f, fuel = f + 1 := ⟨fuel - 1, by omega⟩
          have h1 := ihl (some i) f hl (by omega)
          have h2 := ihr (some i) f hr (by omega)
          show inorderF m (f + 1) (some i) = _
          simp only [inorderF, hrec]
          rw [h1, h2]
          simp [keysOf]

/-- The pre-order id walk returns the pre-order ids of a represented
subtree. -/
theorem preIdsF_sim {m : Store} :
    ∀ (T : ITree) (p : Option Nat) (fuel : Nat), Rep m p T → size T < fuel →
      preIdsF m fuel (rootIdO T) = some (preIds T) := by
  intro T
  induction T with
  | leaf =>
      intro p fuel _ _
      cases fuel <;> simp [preIdsF, rootIdO, preIds]
  | node i k l r ihl ihr =>
      intro p fuel hrep hfuel
      cases hrep with
      | node _ _ _ _ _ hrec hl hr =>
          rw [size_node] at hfuel
          obtain ⟨f, rfl⟩ : ∃ f, fuel = f + 1 := ⟨fuel - 1, by omega⟩
          have h1 := ihl (some i) f hl (by omega)
          have h2 := ihr (some i) f hr (by omega)
          show preIdsF m (f + 1) (some i) = _
          simp only [preIdsF, hrec]
          rw [h1, h2]
          simp [preIds]

end BSTGo

namespace BSTGo

open ITree

theorem rootIdO_insertAbs {key : Int} {nid : Nat} {T : ITree} (h : T ≠ .leaf) :
    rootIdO (insertAbs key nid T) = rootIdO T := by
  cases T with
  | leaf => exact absurd rfl h
  | node i k l r =>
      simp only [insertAbs]
      by_cases hc : key < k <;> simp [hc, rootIdO]

theorem mem_ids_insertAbs {key : Int} {nid j : Nat} {T : ITree} :
    j ∈ ids (insertAbs key nid T) ↔ j ∈ ids T ∨ j = nid := by
  induction T with
  | leaf => simp [insertAbs, ids]
  | node i k l r ihl ihr =>
      simp only [insertAbs]
      by_cases hc : key < k
      · simp only [if_pos hc, mem_ids_node, ihl]
        constructor
        · rintro ((h | h) | h | h) <;> simp_all [mem_ids_node]
        · rintro ((h | h | h) | h) <;> simp_all [mem_ids_node]
      · simp only [if_neg hc, mem_ids_node, ihr]
        constructor
        · rintro (h | h | h | h) <;> simp_all [mem_ids_node]
        · rintro ((h | h | h) | h) <;> simp_all [mem_ids_node]

theorem insertAbs_nodup {key : Int} {nid : Nat} {T : ITree}
    (hnd : (ids T).Nodup) (hnin : nid ∉ ids T) : (ids (insertAbs key nid T)).Nodup := by
  induction T with
  | leaf => simp [insertAbs, ids]
  | node i k l r ihl ihr =>
      rcases nodup_node_iff.1 hnd with ⟨hndl, hndr, hil, hir, hdisj⟩
      rw [mem_ids_node] at hnin
      push_neg at hnin
      simp only [insertAbs]
      by_cases hc : key < k
      · simp only [if_pos hc]
        refine nodup_node_iff.2 ⟨ihl hndl hnin.1, hndr, ?_, hir, ?_⟩
        · intro h
          rcases mem_ids_insertAbs.1 h with h | h
          · exact hil h
          · exact hnin.2.1 h.symm
        · intro j hj
          rcases mem_ids_insertAbs.1 hj with h | h
          · exact hdisj j h
          · exact h ▸ hnin.2.2
      · simp only [if_neg hc]
        refine nodup_node_iff.2 ⟨hndl, ihr hndr hnin.2.2, hil, ?_, ?_⟩
        · intro h
          rcases mem_ids_insertAbs.1 h with h | h
          · exact hir h
          · exact hnin.2.1 h.symm
        · intro j hj h
          rcases mem_ids_insertAbs.1 h with h2 | h2
          · exact hdisj j hj h2
          · exact hnin.1 (h2 ▸ hj)

theorem mem_keys_node {x k : Int} {i : Nat} {l r : ITree} :
    x ∈ keysOf (.node i k l r) ↔ x ∈ keysOf l ∨ x = k ∨ x ∈ keysOf r := by
  simp [keysOf]

theorem mem_keys_insertAbs {key x : Int} {nid : Nat} {T : ITree} :
    x ∈ keysOf (insertAbs key nid T) ↔ x ∈ keysOf T ∨ x = key := by
  induction T with
  | leaf => simp [insertAbs, keysOf]
  | node i k l r ihl ihr =>
      simp only [insertAbs]
      by_cases hc : key < k
      · simp only [if_pos hc, mem_keys_node, ihl]
        tauto
      · simp only [if_neg hc, mem_keys_node, ihr]
        tauto

theorem insertAbs_isBST {key : Int} {nid : Nat} {T : ITree}
    (h : IsBST T) : IsBST (insertAbs key nid T) := by
  induction T with
  | leaf => exact ⟨by simp [keysOf], by simp [keysOf], trivial, trivial⟩
  | node i k l r ihl ihr =>
      obtain ⟨hbl, hbr, hl, hr⟩ := h
      simp only [insertAbs]
      by_cases hc : key < k
      · simp only [if_pos hc]
        refine ⟨?_, hbr, ihl hl, hr⟩
        intro x hx
        rcases mem_keys_insertAbs.1 hx with h | h
        · exact hbl x h
        · exact h ▸ hc
      · simp only [if_neg hc]
        refine ⟨hbl, ?_, hl, ihr hr⟩
        intro x hx
        rcases mem_keys_insertAbs.1 hx with h | h
        · exact hbr x h
        · exact h ▸ (by omega : k ≤ key)

theorem attachPt_mem {key : Int} :
    ∀ (T : ITree) (par : Option Nat) (q : Nat), T ≠ .leaf →
      attachPt key T par = some q → q ∈ ids T := by
  intro T
  induction T with
  | leaf => intro par q h; exact absurd rfl h
  | node i k l r ihl ihr =>
      intro par q _ hq
      simp only [attachPt] at hq
      by_cases hc : key < k
      · rw [if_pos hc] at hq
        cases l with
        | leaf =>
            simp only [attachPt] at hq
            cases hq
            simp [mem_ids_node]
        | node j kj a b =>
            exact mem_ids_node.2 (Or.inl (ihl (some i) q (by simp) hq))
      · rw [if_neg hc] at hq
        cases r with
        | leaf =>
            simp only [attachPt] at hq
            cases hq
            simp [mem_ids_node]
        | node j kj a b =>
            exact mem_ids_node.2 (Or.inr (Or.inr (ihr (some i) q (by simp) hq)))

end BSTGo

namespace BSTGo

open ITree

/-- Grafting the fresh leaf: writing the new record at `nxt` and pointing
the attach parent's empty slot at it realises `insertAbs` in the heap. -/
theorem insertGraft {m : Store} {nxt : Nat} (key : Int) :
    ∀ (T : ITree) (p : Option Nat), Rep m p T → (ids T).Nodup →
      (∀ i ∈ ids T, i < nxt) → T ≠ .leaf →
      ∃ q pn, attachPt key T p = some q ∧ m q = some pn ∧
        (if key < pn.key
         then Rep (upd (upd m nxt ⟨key, some q, none, none⟩) q { pn with left := some nxt })
            p (insertAbs key nxt T)
         else Rep (upd (upd m nxt ⟨key, some q, none, none⟩) q { pn with right := some nxt })
            p (insertAbs key nxt T)) := by
  intro T
  induction T with
  | leaf => intro p _ _ _ h; exact absurd rfl h
  | node i k l r ihl ihr =>
      intro p hrep hnd hbd _
      cases hrep with
      | node _ _ _ _ _ hrec hl hr =>
          rcases nodup_node_iff.1 hnd with ⟨hndl, hndr, hil, hir, hdisj⟩
          have hbi : i < nxt := hbd i (by simp [mem_ids_node])
          by_cases hc : key < k
          · cases l with
            | leaf =>
                refine ⟨i, ⟨k, p, rootIdO .leaf, rootIdO r⟩, ?_, hrec, ?_⟩
                · simp [attachPt, hc]
                · simp only [if_pos hc, insertAbs]
                  refine Rep.node p i k _ r ?_ ?_ ?_
                  · rw [upd_same]
                    rfl
                  · refine Rep.node (some i) nxt key .leaf .leaf ?_ (.leaf _) (.leaf _)
                    rw [upd_ne _ _ _ _ (by omega : nxt ≠ i), upd_same]
                    rfl
                  · refine hr.frame fun j hj => ?_
                    have hjq : j ≠ i := fun e => hir (e ▸ hj)
                    have hjn : j ≠ nxt := by
                      have := hbd j (mem_ids_node.2 (Or.inr (Or.inr hj)))
                      omega
                    rw [upd_ne _ _ _ _ hjq, upd_ne _ _ _ _ hjn]
            | node j0 k0 a b =>
                obtain ⟨q, pn, hq, hpn, hcond⟩ :=
                  ihl (some i) hl hndl
                    (fun j hj => hbd j (mem_ids_node.2 (Or.inl hj))) (by simp)
                have hqmem : q ∈ ids (ITree.node j0 k0 a b) :=
                  attachPt_mem _ (some i) q (by simp) hq
                have hqi : q ≠ i := fun e => hil (e ▸ hqmem)
                have hrebuild : ∀ (v w : GNode) (L' : ITree),
                    Rep (upd (upd m nxt w) q v) (some i) L' →
                    rootIdO L' = rootIdO (ITree.node j0 k0 a b) →
                    Rep (upd (upd m nxt w) q v) p (ITree.node i k L' r) := by
                  intro v w L' hL hroot
                  refine Rep.node p i k L' r ?_ hL ?_
                  · rw [upd_ne _ _ _ _ (show (i : Nat) ≠ q from fun e => hqi e.symm),
                      upd_ne _ _ _ _ (by omega : i ≠ nxt)]
                    rw [hroot]
                    exact hrec
                  · refine hr.frame fun j hj => ?_
                    have hjq : j ≠ q := fun e => hdisj q (e ▸ hqmem) (e ▸ hj)
                    have hjn : j ≠ nxt := by
                      have := hbd j (mem_ids_node.2 (Or.inr (Or.inr hj)))
                      omega
                    rw [upd_ne _ _ _ _ hjq, upd_ne _ _ _ _ hjn]
                refine ⟨q, pn, ?_, hpn, ?_⟩
                · simpa [attachPt, hc] using hq
                · have hroot' : rootIdO (insertAbs key nxt (ITree.node j0 k0 a b)) =
                      rootIdO (ITree.node j0 k0 a b) := rootIdO_insertAbs (by simp)
                  by_cases hck : key < pn.key
                  · rw [if_pos hck] at hcond ⊢
                    simp only [insertAbs, if_pos hc]
                    exact hrebuild _ _ _ hcond hroot'
                  · rw [if_neg hck] at hcond ⊢
                    simp only [insertAbs, if_pos hc]
                    exact hrebuild _ _ _ hcond hroot'
          · cases r with
            | leaf =>
                refine ⟨i, ⟨k, p, rootIdO l, rootIdO .leaf⟩, ?_, hrec, ?_⟩
                · cases l <;> simp [attachPt, hc]
                · rw [if_neg (show ¬ key < k from hc)]
                  simp only [insertAbs, if_neg hc]
                  refine Rep.node p i k l _ ?_ ?_ ?_
                  · rw [upd_same]
                    rfl
                  · refine hl.frame fun j hj => ?_
                    have hjq : j ≠ i := fun e => hil (e ▸ hj)
                    have hjn : j ≠ nxt := by
                      have := hbd j (mem_ids_node.2 (Or.inl hj))
                      omega
                    rw [upd_ne _ _ _ _ hjq, upd_ne _ _ _ _ hjn]
                  · refine Rep.node (some i) nxt key .leaf .leaf ?_ (.leaf _) (.leaf _)
                    rw [upd_ne _ _ _ _ (by omega : nxt ≠ i), upd_same]
                    rfl
            | node j0 k0 a b =>
                obtain ⟨q, pn, hq, hpn, hcond⟩ :=
                  ihr (some i) hr hndr
                    (fun j hj => hbd j (mem_ids_node.2 (Or.inr (Or.inr hj)))) (by simp)
                have hqmem : q ∈ ids (ITree.node j0 k0 a b) :=
                  attachPt_mem _ (some i) q (by simp) hq
                have hqi : q ≠ i := fun e => hir (e ▸ hqmem)
                have hrebuild : ∀ (v w : GNode) (R' : ITree),
                    Rep (upd (upd m nxt w) q v) (some i) R' →
                    rootIdO R' = rootIdO (ITree.node j0 k0 a b) →
                    Rep (upd (upd m nxt w) q v) p (ITree.node i k l R') := by
                  intro v w R' hR hroot
                  refine Rep.node p i k l R' ?_ ?_ hR
                  · rw [upd_ne _ _ _ _ (show (i : Nat) ≠ q from fun e => hqi e.symm),
                      upd_ne _ _ _ _ (by omega : i ≠ nxt)]
                    rw [hroot]
                    exact hrec
                  · refine hl.frame fun j hj => ?_
                    have hjq : j ≠ q := fun e => hdisj j hj (e ▸ hqmem)
                    have hjn : j ≠ nxt := by
                      have := hbd j (mem_ids_node.2 (Or.inl hj))
                      omega
                    rw [upd_ne _ _ _ _ hjq, upd_ne _ _ _ _ hjn]
                refine ⟨q, pn, ?_, hpn, ?_⟩
                · simpa [attachPt, hc] using hq
                · have hroot' : rootIdO (insertAbs key nxt (ITree.node j0 k0 a b)) =
                      rootIdO (ITree.node j0 k0 a b) := rootIdO_insertAbs (by simp)
                  by_cases hck : key < pn.key
                  · rw [if_pos hck] at hcond ⊢
                    simp only [insertAbs, if_neg hc]
                    exact hrebuild _ _ _ hcond hroot'
                  · rw [if_neg hck] at hcond ⊢
                    simp only [insertAbs, if_neg hc]
                    exact hrebuild _ _ _ hcond hroot'

end BSTGo

namespace BSTGo

open ITree

/-- `Insert` always succeeds on a well-formed tree and realises
`insertAbs` with the fresh id `t.next`. -/
theorem insertOp_sim {t : BT} {T : ITree} (key : Int) (h : WFT t T) :
    ∃ t', insertOp t key = some t' ∧ WFT t' (insertAbs key t.next T) ∧
      t'.next = t.next + 1 := by
  obtain ⟨hroot, hrep, hnd, hbd, hbst⟩ := h
  have hsz : size T < t.next + 1 := Nat.lt_succ_of_le (size_le_of_nodup_lt hnd hbd)
  have hloop := insertLoop_sim key T none (t.next + 1) none hrep hsz
  cases T with
  | leaf =>
      refine ⟨⟨upd t.mem t.next ⟨key, none, none, none⟩, t.next + 1, some t.next⟩, ?_, ?_, rfl⟩
      · simp only [insertOp, hroot]
        rw [hloop]
        rfl
      · refine ⟨rfl, ?_, by simp [insertAbs, ids], ?_, ?_⟩
        · refine Rep.node none t.next key .leaf .leaf ?_ (.leaf _) (.leaf _)
          show upd t.mem t.next ⟨key, none, none, none⟩ t.next = _
          rw [upd_same]
          rfl
        · intro i hi
          simp [insertAbs, ids] at hi
          show i < t.next + 1
          omega
        · exact ⟨by simp [keysOf], by simp [keysOf], trivial, trivial⟩
  | node i0 k0 l0 r0 =>
      obtain ⟨q, pn, hq, hpn, hcond⟩ := insertGraft key _ none hrep hnd hbd (by simp)
      have hnin : t.next ∉ ids (ITree.node i0 k0 l0 r0) := fun hmem => by
        have := hbd _ hmem
        omega
      have hwf2 : ∀ m', Rep m' none (insertAbs key t.next (ITree.node i0 k0 l0 r0)) →
          WFT ⟨m', t.next + 1, t.root⟩ (insertAbs key t.next (ITree.node i0 k0 l0 r0)) := by
        intro m' hr'
        refine ⟨?_, hr', insertAbs_nodup hnd hnin, ?_, insertAbs_isBST hbst⟩
        · show t.root = _
          rw [hroot, rootIdO_insertAbs (by simp)]
        · intro j hj
          show j < t.next + 1
          rcases mem_ids_insertAbs.1 hj with h | h
          · have := hbd j h
            omega
          · omega
      by_cases hck : key < pn.key
      · rw [if_pos hck] at hcond
        refine ⟨_, ?_, hwf2 _ hcond, rfl⟩
        simp only [insertOp, hroot, hloop, hq, hpn]
        rw [if_pos (show pn.key > key from hck)]
      · rw [if_neg hck] at hcond
        refine ⟨_, ?_, hwf2 _ hcond, rfl⟩
        simp only [insertOp, hroot, hloop, hq, hpn]
        rw [if_neg (show ¬ pn.key > key from hck)]

end BSTGo

namespace BSTGo

open ITree

/-- Rebuild a subtree representation from a new heap that only rewired the
root record's `Parent` and left everything below unchanged. -/
theorem Rep.reparentFrame {m m' : Store} {p q : Option Nat} {i : Nat} {k : Int}
    {tl tr : ITree} (h : Rep m p (.node i k tl tr))
    (hnd : (ids (ITree.node i k tl tr)).Nodup)
    (hrec' : m' i = some ⟨k, q, rootIdO tl, rootIdO tr⟩)
    (hfr : ∀ j ∈ ids (ITree.node i k tl tr), j ≠ i → m' j = m j) :
    Rep m' q (.node i k tl tr) := by
  rcases nodup_node_iff.1 hnd with ⟨-, -, hil, hir, -⟩
  cases h with
  | node _ _ _ _ _ hrec hl hr =>
      refine Rep.node q i k tl tr hrec' ?_ ?_
      · exact hl.frame fun j hj =>
          hfr j (mem_ids_node.2 (Or.inl hj)) (fun e => hil (e ▸ hj))
      · exact hr.frame fun j hj =>
          hfr j (mem_ids_node.2 (Or.inr (Or.inr hj))) (fun e => hir (e ▸ hj))

/-- The tree root after a transplant whose removed node's parent is `q`:
the replacement subtree becomes the root exactly when `q` is absent. -/
def slotRoot (q : Option Nat) (v groot : Option Nat) : Option Nat :=
  match q with
  | none => v
  | some _ => groot

/-- Full characterisation of `transplant(u, v)` when `u`'s record and
parent slot are known: result heap, new root, frame, and the two written
records. -/
theorem transplantN {m : Store} {nxt : Nat} {groot : Option Nat} {nid : Nat}
    {nrec : GNode} {v : Option Nat} {q : Option Nat}
    (hn : m nid = some nrec) (hq : nrec.parent = q)
    (hpid : ∀ pid, q = some pid → ∃ pn, m pid = some pn)
    (hvex : ∀ vid, v = some vid → ∃ vr, m vid = some vr)
    (hvp : ∀ vid pid, v = some vid → q = some pid → vid ≠ pid) :
    ∃ m', transplantOp ⟨m, nxt, groot⟩ nid v =
        some ⟨m', nxt, slotRoot q v groot⟩ ∧
      (∀ j, (∀ pid, q = some pid → j ≠ pid) → (∀ vid, v = some vid → j ≠ vid) →
        m' j = m j) ∧
      (∀ vid vr, v = some vid → m vid = some vr → m' vid = some { vr with parent := q }) ∧
      (∀ pid pn, q = some pid → m pid = some pn →
        m' pid = some (if pn.left = some nid then { pn with left := v }
                       else { pn with right := v })) := by
  cases q with
  | none =>
      cases v with
      | none =>
          refine ⟨m, ?_, fun j _ _ => rfl, by simp, by simp⟩
          simp only [transplantOp, slotRoot, hn, hq]
      | some vid =>
          obtain ⟨vr, hvr⟩ := hvex vid rfl
          refine ⟨upd m vid { vr with parent := none }, ?_, ?_, ?_, by simp⟩
          · simp only [transplantOp, slotRoot, hn, hq, hvr]
          · intro j _ hj2
            exact upd_ne _ _ _ _ (hj2 vid rfl)
          · intro vid' vr' hv' hvr'
            cases hv'
            rw [hvr] at hvr'
            cases hvr'
            rw [upd_same]
  | some pid =>
      obtain ⟨pn, hpn⟩ := hpid pid rfl
      have hslot : ∀ w : GNode,
          (upd m pid w) nid = m nid ∨ nid = pid := by
        intro w
        by_cases hnp : nid = pid
        · exact Or.inr hnp
        · exact Or.inl (upd_ne _ _ _ _ hnp)
      by_cases hleft : pn.left = some nid
      · cases v with
        | none =>
            refine ⟨upd m pid { pn with left := none }, ?_, ?_, by simp, ?_⟩
            · simp only [transplantOp, slotRoot, hn, hq, hpn, if_pos hleft]
            · intro j hj1 _
              exact upd_ne _ _ _ _ (hj1 pid rfl)
            · intro pid' pn' hq' hpn'
              cases hq'
              rw [hpn] at hpn'
              cases hpn'
              rw [upd_same, if_pos hleft]
        | some vid =>
            have hvpid : vid ≠ pid := hvp vid pid rfl rfl
            obtain ⟨vr, hvr⟩ := hvex vid rfl
            refine ⟨upd (upd m pid { pn with left := some vid }) vid
              { vr with parent := some pid }, ?_, ?_, ?_, ?_⟩
            · simp only [transplantOp, slotRoot, hn, hq, hpn, if_pos hleft]
              rw [upd_ne _ _ _ _ hvpid, hvr, ← hq]
            · intro j hj1 hj2
              rw [upd_ne _ _ _ _ (hj2 vid rfl), upd_ne _ _ _ _ (hj1 pid rfl)]
            · intro vid' vr' hv' hvr'
              cases hv'
              rw [hvr] at hvr'
              cases hvr'
              rw [upd_same]
            · intro pid' pn' hq' hpn'
              cases hq'
              rw [hpn] at hpn'
              cases hpn'
              rw [upd_ne _ _ _ _ (Ne.symm hvpid), upd_same, if_pos hleft]
      · cases v with
        | none =>
            refine ⟨upd m pid { pn with right := none }, ?_, ?_, by simp, ?_⟩
            · simp only [transplantOp, slotRoot, hn, hq, hpn, if_neg hleft]
            · intro j hj1 _
              exact upd_ne _ _ _ _ (hj1 pid rfl)
            · intro pid' pn' hq' hpn'
              cases hq'
              rw [hpn] at hpn'
              cases hpn'
              rw [upd_same, if_neg hleft]
        | some vid =>
            have hvpid : vid ≠ pid := hvp vid pid rfl rfl
            obtain ⟨vr, hvr⟩ := hvex vid rfl
            refine ⟨upd (upd m pid { pn with right := some vid }) vid
              { vr with parent := some pid }, ?_, ?_, ?_, ?_⟩
            · simp only [transplantOp, slotRoot, hn, hq, hpn, if_neg hleft]
              rw [upd_ne _ _ _ _ hvpid, hvr, ← hq]
            · intro j hj1 hj2
              rw [upd_ne _ _ _ _ (hj2 vid rfl), upd_ne _ _ _ _ (hj1 pid rfl)]
            · intro vid' vr' hv' hvr'
              cases hv'
              rw [hvr] at hvr'
              cases hvr'
              rw [upd_same]
            · intro pid' pn' hq' hpn'
              cases hq'
              rw [hpn] at hpn'
              cases hpn'
              rw [upd_ne _ _ _ _ (Ne.symm hvpid), upd_same, if_neg hleft]

end BSTGo

namespace BSTGo

open ITree

theorem lm_some (i : Nat) (k : Int) (l r : ITree) :
    ∃ yid yk, lmId (.node i k l r) = some yid ∧ lmKey (.node i k l r) = some yk := by
  induction l generalizing i k r with
  | leaf => exact ⟨i, k, rfl, rfl⟩
  | node j kj a b ih =>
      obtain ⟨yid, yk, h1, h2⟩ := ih j kj b
      exact ⟨yid, yk, h1, h2⟩

theorem ids_lm_cons : ∀ {T : ITree} {yid : Nat}, lmId T = some yid →
    ids T = yid :: ids (removeLeftmost T) := by
  intro T
  induction T with
  | leaf => intro yid h; cases h
  | node i k l r ih =>
      intro yid h
      cases l with
      | leaf =>
          simp only [lmId] at h
          cases h
          simp [ids, removeLeftmost]
      | node j kj a b =>
          simp only [lmId] at h
          have := ih h
          show ids (ITree.node j kj a b) ++ i :: ids r = _
          rw [this]
          simp [removeLeftmost, ids]

theorem keys_lm_cons : ∀ {T : ITree} {yk : Int}, lmKey T = some yk →
    keysOf T = yk :: keysOf (removeLeftmost T) := by
  intro T
  induction T with
  | leaf => intro yk h; cases h
  | node i k l r ih =>
      intro yk h
      cases l with
      | leaf =>
          simp only [lmKey] at h
          cases h
          simp [keysOf, removeLeftmost]
      | node j kj a b =>
          simp only [lmKey] at h
          have := ih h
          show keysOf (ITree.node j kj a b) ++ k :: keysOf r = _
          rw [this]
          simp [removeLeftmost, keysOf]

theorem lmKey_mem {T : ITree} {yk : Int} (h : lmKey T = some yk) : yk ∈ keysOf T := by
  rw [keys_lm_cons h]
  exact List.mem_cons_self _ _

theorem removeLeftmost_isBST : ∀ {T : ITree}, IsBST T → IsBST (removeLeftmost T) := by
  intro T
  induction T with
  | leaf => intro _; trivial
  | node i k l r ih =>
      intro h
      obtain ⟨hbl, hbr, hl, hr⟩ := h
      cases l with
      | leaf => exact hr
      | node j kj a b =>
          refine ⟨?_, hbr, ih hl, hr⟩
          intro x hx
          obtain ⟨yk, hyk⟩ : ∃ yk, lmKey (ITree.node j kj a b) = some yk := by
            obtain ⟨yid, yk, -, h2⟩ := lm_some j kj a b
            exact ⟨yk, h2⟩
          have := keys_lm_cons hyk
          exact hbl x (by rw [this]; exact List.mem_cons_of_mem _ hx)

theorem bst_lm_min : ∀ {T : ITree} {yk : Int}, IsBST T → lmKey T = some yk →
    ∀ x ∈ keysOf T, yk ≤ x := by
  intro T
  induction T with
  | leaf => intro yk _ h; cases h
  | node i k l r ih =>
      intro yk hbst h x hx
      obtain ⟨hbl, hbr, hl, hr⟩ := hbst
      cases l with
      | leaf =>
          simp only [lmKey] at h
          cases h
          rcases mem_keys_node.1 hx with h1 | h1 | h1
          · simp [keysOf] at h1
          · omega
          · exact hbr x h1
      | node j kj a b =>
          simp only [lmKey] at h
          have hykl : yk ∈ keysOf (ITree.node j kj a b) := lmKey_mem h
          have hykk : yk < k := hbl yk hykl
          rcases mem_keys_node.1 hx with h1 | h1 | h1
          · exact ih hl h x h1
          · omega
          · have := hbr x h1
            omega

end BSTGo

namespace BSTGo

open ITree

/-- Effect of `transplant(y, y.Right)` for `y` the leftmost node of a
represented subtree hanging on `pid`'s left slot: the heap afterwards
represents `removeLeftmost` of that subtree, `y`'s own record survives
unchanged, and nothing outside the subtree and `pid` moves. -/
theorem rlSpine {nxt : Nat} {groot : Option Nat} :
    ∀ (Tl : ITree) (m : Store) (pid : Nat) (pn : GNode) (yid : Nat) (yk : Int),
      Rep m (some pid) Tl → (ids Tl).Nodup → pid ∉ ids Tl →
      m pid = some pn → pn.left = rootIdO Tl →
      lmId Tl = some yid → lmKey Tl = some yk →
      ∃ (yrec : GNode) (m1 : Store),
        m yid = some yrec ∧ yrec.key = yk ∧ yrec.left = none ∧
        (∃ zp, yrec.parent = some zp ∧ (zp = pid ∨ zp ∈ ids Tl)) ∧
        transplantOp ⟨m, nxt, groot⟩ yid yrec.right = some ⟨m1, nxt, groot⟩ ∧
        Rep m1 (some pid) (removeLeftmost Tl) ∧
        m1 pid = some { pn with left := rootIdO (removeLeftmost Tl) } ∧
        m1 yid = m yid ∧
        (∀ j, j ∉ ids Tl → j ≠ pid → m1 j = m j) := by
  intro Tl
  induction Tl with
  | leaf => intro m pid pn yid yk _ _ _ _ _ h6 _; cases h6
  | node i k l r ih =>
      intro m pid pn yid yk hrep hnd hpnotin hpn hpl h6 h7
      rcases nodup_node_iff.1 hnd with ⟨hndl, hndr, hil, hir, hdisj⟩
      have hpid_ne_i : pid ≠ i := fun e => hpnotin (by simp [mem_ids_node, e])
      have hqn : ∀ (P : Nat → Prop), P pid → ∀ p', some pid = some p' → P p' :=
        fun P hP p' hp => Option.some.inj hp ▸ hP
      cases hrep with
      | node _ _ _ _ _ hrec hl hr =>
      cases l with
      | leaf =>
          simp only [lmId] at h6
          simp only [lmKey] at h7
          cases h6
          cases h7
          refine ⟨⟨k, some pid, rootIdO .leaf, rootIdO r⟩, ?_⟩
          have hvex : ∀ vid, rootIdO r = some vid → ∃ vr, m vid = some vr := by
            intro vid hv
            cases r with
            | leaf => cases hv
            | node r1 kr a b =>
                cases hv
                cases hr with
                | node _ _ _ _ _ hrecr _ _ => exact ⟨_, hrecr⟩
          have hvp : ∀ vid p', rootIdO r = some vid → some pid = some p' → vid ≠ p' := by
            intro vid p' hv hp
            cases Option.some.inj hp
            cases r with
            | leaf => cases hv
            | node r1 kr a b =>
                cases hv
                intro e
                exact hpnotin (e ▸ mem_ids_node.2 (Or.inr (Or.inr (by simp [mem_ids_node]))))
          obtain ⟨m', htp, hfr, hvw, hpw⟩ :=
            @transplantN m nxt groot i ⟨k, some pid, rootIdO .leaf, rootIdO r⟩
              (rootIdO r) (some pid) hrec rfl
              (hqn (fun z => ∃ pn', m z = some pn') ⟨pn, hpn⟩) hvex hvp
          have hpl' : pn.left = some i := hpl
          have hm'pid : m' pid = some { pn with left := rootIdO r } := by
            have := hpw pid pn rfl hpn
            rw [if_pos hpl'] at this
            exact this
          refine ⟨m', hrec, rfl, rfl, ⟨pid, rfl, Or.inl rfl⟩, htp, ?_, ?_, ?_, ?_⟩
          · show Rep m' (some pid) r
            cases r with
            | leaf => exact .leaf _
            | node r1 kr a b =>
                cases hr with
                | node _ _ _ _ _ hrecr hra hrb =>
                refine Rep.reparentFrame (Rep.node _ _ _ _ _ hrecr hra hrb) hndr ?_ ?_
                · exact hvw r1 ⟨kr, some i, rootIdO a, rootIdO b⟩ rfl hrecr
                · intro j hj hjne
                  refine hfr j (hqn (fun z => j ≠ z)
                    (fun e => hpnotin (e ▸ mem_ids_node.2 (Or.inr (Or.inr hj))))) ?_
                  intro vid hv
                  cases hv
                  exact hjne
          · show m' pid = _
            rw [hm'pid]
            rfl
          · refine hfr i (hqn (fun z => i ≠ z) (Ne.symm hpid_ne_i)) ?_
            intro vid hv e
            cases r with
            | leaf => cases hv
            | node r1 kr a b =>
                apply hir
                rw [e, ← Option.some.inj hv]
                exact mem_ids_node.2 (Or.inr (Or.inl rfl))
          · intro j hj hjp
            refine hfr j (hqn (fun z => j ≠ z) hjp) ?_
            intro vid hv e
            cases r with
            | leaf => cases hv
            | node r1 kr a b =>
                apply hj
                rw [e, ← Option.some.inj hv]
                exact mem_ids_node.2 (Or.inr (Or.inr (mem_ids_node.2 (Or.inr (Or.inl rfl)))))
      | node j0 k0 a b =>
          simp only [lmId] at h6
          simp only [lmKey] at h7
          obtain ⟨yrec, m1, hy1, hy2, hy3, ⟨zp, hzp, hzpmem⟩, htp, hrepL, hpidrec, hyid, hfr⟩ :=
            ih m i ⟨k, some pid, rootIdO (ITree.node j0 k0 a b), rootIdO r⟩ yid yk
              hl hndl hil hrec rfl h6 h7
          refine ⟨yrec, m1, hy1, hy2, hy3, ⟨zp, hzp, ?_⟩, htp, ?_, ?_, hyid, ?_⟩
          · rcases hzpmem with h | h
            · exact Or.inr (mem_ids_node.2 (Or.inr (Or.inl h)))
            · exact Or.inr (mem_ids_node.2 (Or.inl h))
          · show Rep m1 (some pid) (ITree.node i k (removeLeftmost (ITree.node j0 k0 a b)) r)
            refine Rep.node _ _ _ _ _ ?_ hrepL ?_
            · exact hpidrec
            · refine hr.frame fun j hj => ?_
              exact hfr j (fun hmem => hdisj j hmem hj) (fun e => hir (e ▸ hj))
          · have hout : m1 pid = some pn := by
              refine (hfr pid ?_ hpid_ne_i).trans hpn
              intro hmem
              exact hpnotin (mem_ids_node.2 (Or.inl hmem))
            have hpl' : pn.left = some i := hpl
            rw [hout]
            show some pn = some { pn with left := (some i : Option Nat) }
            rw [← hpl']
          · intro j hj hjp
            refine hfr j (fun hmem => hj (mem_ids_node.2 (Or.inl hmem))) ?_
            intro e
            exact hj (mem_ids_node.2 (Or.inr (Or.inl e)))

end BSTGo

namespace BSTGo

open ITree

/-- Ids of the local delete transform stay inside the subtree. -/
theorem ids_deleteAtNode_sublist (nid : Nat) (k : Int) (Tl Tr : ITree) :
    (ids (deleteAtNode (.node nid k Tl Tr))).Sublist (ids (ITree.node nid k Tl Tr)) := by
  cases Tl with
  | leaf =>
      cases Tr with
      | leaf => simp [deleteAtNode, ids]
      | node r1 kr ra rb =>
          show (ids (ITree.node r1 kr ra rb)).Sublist _
          simp only [ids, List.nil_append]
          exact List.Sublist.cons _ (List.Sublist.refl _)
  | node l1 lk la lb =>
      cases Tr with
      | leaf =>
          show (ids (ITree.node l1 lk la lb)).Sublist _
          simp only [ids]
          exact List.sublist_append_left _ _
      | node r1 kr ra rb =>
          obtain ⟨yid, yk, h1, h2⟩ := lm_some r1 kr ra rb
          have hcons := ids_lm_cons h1
          have hL : ids (deleteAtNode (.node nid k (ITree.node l1 lk la lb)
              (ITree.node r1 kr ra rb))) = ids (ITree.node l1 lk la lb) ++
                yid :: ids (removeLeftmost (ITree.node r1 kr ra rb)) := by
            simp only [deleteAtNode, h1, h2]
            rfl
          have hR : ids (ITree.node nid k (ITree.node l1 lk la lb)
              (ITree.node r1 kr ra rb)) = ids (ITree.node l1 lk la lb) ++
                nid :: yid :: ids (removeLeftmost (ITree.node r1 kr ra rb)) := by
            show ids (ITree.node l1 lk la lb) ++ nid :: ids (ITree.node r1 kr ra rb) = _
            rw [hcons]
          rw [hL, hR]
          refine List.Sublist.append (List.Sublist.refl _) ?_
          exact List.Sublist.cons _ (List.Sublist.refl _)

end BSTGo

namespace BSTGo

open ITree

/-- `Delete` at a node with two children whose right child has no left
child: the right child is the in-order successor and is spliced into the
deleted node's position directly. -/
theorem danceBothShallow {nxt : Nat} {groot : Option Nat} {m : Store} {nid : Nat} {k : Int}
    {l1 : Nat} {lk : Int} {la lb : ITree} {r1 : Nat} {kr : Int} {rb : ITree} {q : Option Nat}
    (hrep : Rep m q (.node nid k (.node l1 lk la lb) (.node r1 kr .leaf rb)))
    (hnd : (ids (ITree.node nid k (.node l1 lk la lb) (.node r1 kr .leaf rb))).Nodup)
    (hbd : ∀ i ∈ ids (ITree.node nid k (.node l1 lk la lb) (.node r1 kr .leaf rb)), i < nxt)
    (hctx : q = none ∨ ∃ pid pn, q = some pid ∧
      pid ∉ ids (ITree.node nid k (.node l1 lk la lb) (.node r1 kr .leaf rb)) ∧
      m pid = some pn) :
    ∃ m', Rep m' q (.node r1 kr (.node l1 lk la lb) rb) ∧
      (∀ j, j ∉ ids (ITree.node nid k (.node l1 lk la lb) (.node r1 kr .leaf rb)) →
        (∀ pid, q = some pid → j ≠ pid) → m' j = m j) ∧
      deleteAt ⟨m, nxt, groot⟩ nid = some ⟨m', nxt, slotRoot q (some r1) groot⟩ ∧
      (∀ pid pn, q = some pid → m pid = some pn →
        m' pid = some (if pn.left = some nid then { pn with left := some r1 }
                       else { pn with right := some r1 })) := by
  have hpidfacts : ∀ pid, q = some pid →
      pid ∉ ids (ITree.node nid k (.node l1 lk la lb) (.node r1 kr .leaf rb)) ∧
      ∃ pn, m pid = some pn := by
    intro pid hq
    rcases hctx with h | ⟨pid', pn', hq', hmem', hpn'⟩
    · rw [h] at hq; cases hq
    · rw [hq'] at hq
      cases Option.some.inj hq
      exact ⟨hmem', pn', hpn'⟩
  rcases nodup_node_iff.1 hnd with ⟨hndL, hndR, hnidL, hnidR, hdisjLR⟩
  rcases nodup_node_iff.1 hndR with ⟨-, hndrb, -, hr1rb, -⟩
  cases hrep with
  | node _ _ _ _ _ hrec hL hR =>
  cases hR with
  | node _ _ _ _ _ hrecR hra hrb =>
  cases hL with
  | node _ _ _ _ _ hrecL hla hlb =>
  have hl1R : l1 ∉ ids (ITree.node r1 kr .leaf rb) :=
    hdisjLR l1 (mem_ids_node.2 (Or.inr (Or.inl rfl)))
  have hl1r1 : l1 ≠ r1 := fun e => hl1R (e ▸ mem_ids_node.2 (Or.inr (Or.inl rfl)))
  have hnidr1 : nid ≠ r1 := fun e => hnidR (e ▸ mem_ids_node.2 (Or.inr (Or.inl rfl)))
  -- minLoop finds the right child itself
  have hszR : size (ITree.node r1 kr .leaf rb) < nxt + 1 := by
    refine Nat.lt_succ_of_le (size_le_of_nodup_lt hndR ?_)
    intro j hj
    exact hbd j (mem_ids_node.2 (Or.inr (Or.inr hj)))
  have hmin : minLoop m (nxt + 1) (some r1) = some (some r1) := by
    have := minLoop_sim (ITree.node r1 kr .leaf rb) (some nid) (nxt + 1)
      (Rep.node _ _ _ _ _ hrecR hra hrb) hszR
    simpa [rootIdO, lmId] using this
  -- the final transplant of n by y
  obtain ⟨m4, htp4, hfr4, hvw4, hpw4⟩ :=
    @transplantN m nxt groot nid ⟨k, q, rootIdO (ITree.node l1 lk la lb),
      rootIdO (ITree.node r1 kr .leaf rb)⟩ (some r1) q hrec rfl
      (fun pid hq => (hpidfacts pid hq).2)
      (fun vid hv => Option.some.inj hv ▸
        ⟨⟨kr, some nid, rootIdO .leaf, rootIdO rb⟩, hrecR⟩)
      (fun vid pid hv hq e =>
        (hpidfacts pid hq).1 (e ▸ Option.some.inj hv ▸
          mem_ids_node.2 (Or.inr (Or.inr (mem_ids_node.2 (Or.inr (Or.inl rfl)))))))
  have hm4nid : m4 nid = m nid := by
    refine hfr4 nid (fun pid hq e => (hpidfacts pid hq).1
      (e ▸ mem_ids_node.2 (Or.inr (Or.inl rfl)))) ?_
    intro vid hv
    exact Option.some.inj hv ▸ hnidr1
  have hm4r1 : m4 r1 = some ⟨kr, q, rootIdO .leaf, rootIdO rb⟩ := by
    have := hvw4 r1 ⟨kr, some nid, rootIdO .leaf, rootIdO rb⟩ rfl hrecR
    exact this
  have hm4l1 : m4 l1 = m l1 := by
    refine hfr4 l1 (fun pid hq e => (hpidfacts pid hq).1
      (e ▸ mem_ids_node.2 (Or.inl (mem_ids_node.2 (Or.inr (Or.inl rfl)))))) ?_
    intro vid hv
    exact Option.some.inj hv ▸ hl1r1
  refine ⟨upd (upd m4 r1 ⟨kr, q, some l1, rootIdO rb⟩) l1
    ⟨lk, some r1, rootIdO la, rootIdO lb⟩, ?_, ?_, ?_, ?_⟩
  · -- the new subtree representation
    refine Rep.node q r1 kr (ITree.node l1 lk la lb) rb ?_ ?_ ?_
    · rw [upd_ne _ _ _ _ (Ne.symm hl1r1), upd_same]
      rfl
    · refine Rep.reparentFrame (Rep.node _ _ _ _ _ hrecL hla hlb) hndL ?_ ?_
      · rw [upd_same]
      · intro j hj hjl1
        rw [upd_ne _ _ _ _ hjl1]
        have hjR : j ∉ ids (ITree.node r1 kr .leaf rb) := fun hmem => hdisjLR j hj hmem
        have hjr1 : j ≠ r1 := fun e => hjR (e ▸ mem_ids_node.2 (Or.inr (Or.inl rfl)))
        rw [upd_ne _ _ _ _ hjr1]
        refine hfr4 j (fun pid hq e => (hpidfacts pid hq).1
          (e ▸ mem_ids_node.2 (Or.inl hj))) ?_
        intro vid hv
        exact Option.some.inj hv ▸ hjr1
    · refine hrb.frame fun j hj => ?_
      have hjl1 : j ≠ l1 := fun e =>
        hl1R (e ▸ mem_ids_node.2 (Or.inr (Or.inr hj)))
      have hjr1 : j ≠ r1 := fun e => hr1rb (e ▸ hj)
      rw [upd_ne _ _ _ _ hjl1, upd_ne _ _ _ _ hjr1]
      refine hfr4 j (fun pid hq e => (hpidfacts pid hq).1
        (e ▸ mem_ids_node.2 (Or.inr (Or.inr (mem_ids_node.2 (Or.inr (Or.inr hj))))))) ?_
      intro vid hv
      exact Option.some.inj hv ▸ hjr1
  · -- frame
    intro j hj hjq
    have hjl1 : j ≠ l1 := fun e =>
      hj (e ▸ mem_ids_node.2 (Or.inl (mem_ids_node.2 (Or.inr (Or.inl rfl)))))
    have hjr1 : j ≠ r1 := fun e =>
      hj (e ▸ mem_ids_node.2 (Or.inr (Or.inr (mem_ids_node.2 (Or.inr (Or.inl rfl))))))
    rw [upd_ne _ _ _ _ hjl1, upd_ne _ _ _ _ hjr1]
    refine hfr4 j hjq ?_
    intro vid hv
    exact Option.some.inj hv ▸ hjr1
  · -- evaluation of the delete body
    have hrootL : rootIdO (ITree.node l1 lk la lb) = some l1 := rfl
    have hrootR : rootIdO (ITree.node r1 kr .leaf rb) = some r1 := rfl
    have hrootlf : rootIdO (.leaf : ITree) = (none : Option Nat) := rfl
    simp only [deleteAt, hrec, hrootL, hrootR, hrootlf, hmin, hrecR]
    rw [if_neg (by simp)]
    simp only [htp4, hm4nid, hrec, hrootL, hrootR, hrootlf, hm4r1]
    have hm5l1 : upd m4 r1 ⟨kr, q, some l1, rootIdO rb⟩ l1 = m l1 := by
      rw [upd_ne _ _ _ _ hl1r1, hm4l1]
    rw [hm5l1, hrecL]
  · -- the parent slot record
    intro pid pn hq hpn
    have hpidl1 : pid ≠ l1 := fun e => (hpidfacts pid hq).1
      (e ▸ mem_ids_node.2 (Or.inl (mem_ids_node.2 (Or.inr (Or.inl rfl)))))
    have hpidr1 : pid ≠ r1 := fun e => (hpidfacts pid hq).1
      (e ▸ mem_ids_node.2 (Or.inr (Or.inr (mem_ids_node.2 (Or.inr (Or.inl rfl))))))
    rw [upd_ne _ _ _ _ hpidl1, upd_ne _ _ _ _ hpidr1]
    exact hpw4 pid pn hq hpn

end BSTGo

namespace BSTGo

open ITree

/-- `Delete` at a node with two children whose in-order successor `y` lies
strictly inside the right subtree: `y` is first spliced out of the left
spine, takes over the right subtree, and finally replaces the deleted
node. -/
theorem danceBothDeep {nxt : Nat} {groot : Option Nat} {m : Store} {nid : Nat} {k : Int}
    {l1 : Nat} {lk : Int} {la lb : ITree} {r1 : Nat} {kr : Int}
    {a1 : Nat} {ak : Int} {aa ab : ITree} {rb : ITree} {q : Option Nat}
    (hrep : Rep m q (.node nid k (.node l1 lk la lb)
      (.node r1 kr (.node a1 ak aa ab) rb)))
    (hnd : (ids (ITree.node nid k (.node l1 lk la lb)
      (.node r1 kr (.node a1 ak aa ab) rb))).Nodup)
    (hbd : ∀ i ∈ ids (ITree.node nid k (.node l1 lk la lb)
      (.node r1 kr (.node a1 ak aa ab) rb)), i < nxt)
    (hctx : q = none ∨ ∃ pid pn, q = some pid ∧
      pid ∉ ids (ITree.node nid k (.node l1 lk la lb)
        (.node r1 kr (.node a1 ak aa ab) rb)) ∧ m pid = some pn)
    {yid : Nat} {yk : Int}
    (hlmA : lmId (ITree.node a1 ak aa ab) = some yid)
    (hlmkA : lmKey (ITree.node a1 ak aa ab) = some yk) :
    ∃ m', Rep m' q (.node yid yk (.node l1 lk la lb)
        (.node r1 kr (removeLeftmost (ITree.node a1 ak aa ab)) rb)) ∧
      (∀ j, j ∉ ids (ITree.node nid k (.node l1 lk la lb)
          (.node r1 kr (.node a1 ak aa ab) rb)) →
        (∀ pid, q = some pid → j ≠ pid) → m' j = m j) ∧
      deleteAt ⟨m, nxt, groot⟩ nid = some ⟨m', nxt, slotRoot q (some yid) groot⟩ ∧
      (∀ pid pn, q = some pid → m pid = some pn →
        m' pid = some (if pn.left = some nid then { pn with left := some yid }
                       else { pn with right := some yid })) := by
  have hpidfacts : ∀ pid, q = some pid →
      pid ∉ ids (ITree.node nid k (.node l1 lk la lb)
        (.node r1 kr (.node a1 ak aa ab) rb)) ∧ ∃ pn, m pid = some pn := by
    intro pid hq
    rcases hctx with h | ⟨pid', pn', hq', hmem', hpn'⟩
    · rw [h] at hq; cases hq
    · rw [hq'] at hq
      cases Option.some.inj hq
      exact ⟨hmem', pn', hpn'⟩
  rcases nodup_node_iff.1 hnd with ⟨hndL, hndR, hnidL, hnidR, hdisjLR⟩
  rcases nodup_node_iff.1 hndR with ⟨hndA, hndrb, hr1A, hr1rb, hdisjArb⟩
  cases hrep with
  | node _ _ _ _ _ hrec hL hR =>
  cases hR with
  | node _ _ _ _ _ hrecR hA hrb =>
  cases hL with
  | node _ _ _ _ _ hrecL hla hlb =>
  have hyidA : yid ∈ ids (ITree.node a1 ak aa ab) := by
    rw [ids_lm_cons hlmA]
    exact List.mem_cons_self _ _
  have hyidR : yid ∈ ids (ITree.node r1 kr (.node a1 ak aa ab) rb) :=
    mem_ids_node.2 (Or.inl hyidA)
  have hyidT : yid ∈ ids (ITree.node nid k (.node l1 lk la lb)
      (.node r1 kr (.node a1 ak aa ab) rb)) :=
    mem_ids_node.2 (Or.inr (Or.inr hyidR))
  have hyid_r1 : yid ≠ r1 := fun e => hr1A (e ▸ hyidA)
  have hnid_r1 : nid ≠ r1 := fun e =>
    hnidR (e ▸ mem_ids_node.2 (Or.inr (Or.inl rfl)))
  have hnid_yid : nid ≠ yid := fun e => hnidR (e ▸ hyidR)
  have hnidA : nid ∉ ids (ITree.node a1 ak aa ab) := fun hmem =>
    hnidR (mem_ids_node.2 (Or.inl hmem))
  have hl1R : l1 ∉ ids (ITree.node r1 kr (.node a1 ak aa ab) rb) :=
    hdisjLR l1 (mem_ids_node.2 (Or.inr (Or.inl rfl)))
  have hl1A : l1 ∉ ids (ITree.node a1 ak aa ab) := fun hmem =>
    hl1R (mem_ids_node.2 (Or.inl hmem))
  have hl1_r1 : l1 ≠ r1 := fun e => hl1R (e ▸ mem_ids_node.2 (Or.inr (Or.inl rfl)))
  have hl1_yid : l1 ≠ yid := fun e => hl1R (e ▸ hyidR)
  have hyid_rmA : yid ∉ ids (removeLeftmost (ITree.node a1 ak aa ab)) := by
    have := hndA
    rw [ids_lm_cons hlmA] at this
    exact (List.nodup_cons.1 this).1
  -- minLoop finds the leftmost node of the right subtree
  have hszR : size (ITree.node r1 kr (.node a1 ak aa ab) rb) < nxt + 1 := by
    refine Nat.lt_succ_of_le (size_le_of_nodup_lt hndR ?_)
    intro j hj
    exact hbd j (mem_ids_node.2 (Or.inr (Or.inr hj)))
  have hmin : minLoop m (nxt + 1) (some r1) = some (some yid) := by
    have h0 := minLoop_sim (ITree.node r1 kr (.node a1 ak aa ab) rb) (some nid) (nxt + 1)
      (Rep.node _ _ _ _ _ hrecR hA hrb) hszR
    have h1 : lmId (ITree.node r1 kr (.node a1 ak aa ab) rb) = some yid := by
      simp only [lmId]
      exact hlmA
    rw [h1] at h0
    exact h0
  -- splice y out of the left spine of the right subtree
  obtain ⟨yrec, m1, hy1, hy2, hy3, ⟨zp, hzp, hzpmem⟩, htp1, hrepRm, hm1r1, hm1yid, hfr1⟩ :=
    @rlSpine nxt groot (ITree.node a1 ak aa ab) m r1
      ⟨kr, some nid, rootIdO (ITree.node a1 ak aa ab), rootIdO rb⟩ yid yk
      hA hndA hr1A hrecR rfl hlmA hlmkA
  have hcond : yrec.parent ≠ some nid := by
    rw [hzp]
    intro e
    rcases hzpmem with h | h
    · exact hnid_r1 ((Option.some.inj e).symm.trans h)
    · exact hnidA ((Option.some.inj e) ▸ h)
  have hm1nid : m1 nid = m nid := hfr1 nid hnidA hnid_r1
  have hm1l1 : m1 l1 = m l1 := hfr1 l1 hl1A hl1_r1
  -- heap after y.Right := n.Right and n.Right.Parent := y
  have hm2yid : upd m1 yid ⟨yrec.key, yrec.parent, yrec.left, some r1⟩ yid =
      some ⟨yrec.key, yrec.parent, yrec.left, some r1⟩ := upd_same _ _ _
  have hm2r1 : upd m1 yid ⟨yrec.key, yrec.parent, yrec.left, some r1⟩ r1 =
      some ⟨kr, some nid, rootIdO (removeLeftmost (ITree.node a1 ak aa ab)),
        rootIdO rb⟩ := by
    rw [upd_ne _ _ _ _ (Ne.symm hyid_r1), hm1r1]
  -- the final transplant of n by y
  obtain ⟨m4, htp4, hfr4, hvw4, hpw4⟩ :=
    @transplantN (upd (upd m1 yid ⟨yrec.key, yrec.parent, yrec.left, some r1⟩) r1
        ⟨kr, some yid, rootIdO (removeLeftmost (ITree.node a1 ak aa ab)), rootIdO rb⟩)
      nxt groot nid ⟨k, q, rootIdO (ITree.node l1 lk la lb),
        rootIdO (ITree.node r1 kr (.node a1 ak aa ab) rb)⟩ (some yid) q
      (by
        rw [upd_ne _ _ _ _ hnid_r1, upd_ne _ _ _ _ hnid_yid, hm1nid]
        exact hrec) rfl
      (by
        intro pid hq
        obtain ⟨hmem, pn, hpn⟩ := hpidfacts pid hq
        have hpid_r1 : pid ≠ r1 := fun e => hmem
          (e ▸ mem_ids_node.2 (Or.inr (Or.inr (mem_ids_node.2 (Or.inr (Or.inl rfl))))))
        have hpid_yid : pid ≠ yid := fun e => hmem (e ▸ hyidT)
        have hpid_A : pid ∉ ids (ITree.node a1 ak aa ab) := fun h => hmem
          (mem_ids_node.2 (Or.inr (Or.inr (mem_ids_node.2 (Or.inl h)))))
        refine ⟨pn, ?_⟩
        rw [upd_ne _ _ _ _ hpid_r1, upd_ne _ _ _ _ hpid_yid, hfr1 pid hpid_A hpid_r1]
        exact hpn)
      (by
        intro vid hv
        cases Option.some.inj hv
        refine ⟨⟨yrec.key, yrec.parent, yrec.left, some r1⟩, ?_⟩
        rw [upd_ne _ _ _ _ hyid_r1, upd_same])
      (by
        intro vid pid hv hq e
        cases Option.some.inj hv
        exact (hpidfacts pid hq).1 (e ▸ hyidT))
  have hm4nid : m4 nid = some ⟨k, q, rootIdO (ITree.node l1 lk la lb),
      rootIdO (ITree.node r1 kr (.node a1 ak aa ab) rb)⟩ := by
    have h0 := hfr4 nid (fun pid hq e => (hpidfacts pid hq).1
      (e ▸ mem_ids_node.2 (Or.inr (Or.inl rfl))))
        (fun vid hv => Option.some.inj hv ▸ hnid_yid)
    rw [h0, upd_ne _ _ _ _ hnid_r1, upd_ne _ _ _ _ hnid_yid, hm1nid]
    exact hrec
  have hm4yid : m4 yid = some ⟨yrec.key, q, yrec.left, some r1⟩ := by
    have h0 := hvw4 yid ⟨yrec.key, yrec.parent, yrec.left, some r1⟩ rfl
      (by rw [upd_ne _ _ _ _ hyid_r1, upd_same])
    exact h0
  have hm4l1 : m4 l1 = m l1 := by
    have h0 := hfr4 l1 (fun pid hq e => (hpidfacts pid hq).1
      (e ▸ mem_ids_node.2 (Or.inl (mem_ids_node.2 (Or.inr (Or.inl rfl))))))
        (fun vid hv => Option.some.inj hv ▸ hl1_yid)
    rw [h0, upd_ne _ _ _ _ hl1_r1, upd_ne _ _ _ _ hl1_yid, hm1l1]
  have hm4r1 : m4 r1 = some ⟨kr, some yid,
      rootIdO (removeLeftmost (ITree.node a1 ak aa ab)), rootIdO rb⟩ := by
    have h0 := hfr4 r1 (fun pid hq e => (hpidfacts pid hq).1
      (e ▸ mem_ids_node.2 (Or.inr (Or.inr (mem_ids_node.2 (Or.inr (Or.inl rfl)))))))
        (fun vid hv => Option.some.inj hv ▸ Ne.symm hyid_r1)
    rw [h0, upd_same]
  -- composite frame over all six heap writes
  have hframeAll : ∀ j, j ∉ ids (ITree.node a1 ak aa ab) → j ≠ r1 → j ≠ yid →
      (∀ pid, q = some pid → j ≠ pid) → j ≠ l1 →
      upd (upd m4 yid ⟨yrec.key, q, some l1, some r1⟩) l1
        ⟨lk, some yid, rootIdO la, rootIdO lb⟩ j = m j := by
    intro j hjA hjr1 hjyid hjq hjl1
    rw [upd_ne _ _ _ _ hjl1, upd_ne _ _ _ _ hjyid]
    rw [hfr4 j hjq (fun vid hv => Option.some.inj hv ▸ hjyid)]
    rw [upd_ne _ _ _ _ hjr1, upd_ne _ _ _ _ hjyid]
    exact hfr1 j hjA hjr1
  refine ⟨upd (upd m4 yid ⟨yrec.key, q, some l1, some r1⟩) l1
    ⟨lk, some yid, rootIdO la, rootIdO lb⟩, ?_, ?_, ?_, ?_⟩
  · -- representation of the rebuilt subtree
    refine Rep.node q yid yk (ITree.node l1 lk la lb)
      (ITree.node r1 kr (removeLeftmost (ITree.node a1 ak aa ab)) rb) ?_ ?_ ?_
    · rw [upd_ne _ _ _ _ (Ne.symm hl1_yid), upd_same, hy2]
      rfl
    · refine Rep.reparentFrame (Rep.node _ _ _ _ _ hrecL hla hlb) hndL ?_ ?_
      · rw [upd_same]
      · intro j hj hjl1
        have hjR : j ∉ ids (ITree.node r1 kr (.node a1 ak aa ab) rb) :=
          fun hmem => hdisjLR j hj hmem
        refine hframeAll j (fun h => hjR (mem_ids_node.2 (Or.inl h)))
          (fun e => hjR (e ▸ mem_ids_node.2 (Or.inr (Or.inl rfl))))
          (fun e => hjR (e ▸ hyidR))
          (fun pid hq e => (hpidfacts pid hq).1 (e ▸ mem_ids_node.2 (Or.inl hj)))
          hjl1
    · refine Rep.node (some yid) r1 kr _ rb ?_ ?_ ?_
      · rw [upd_ne _ _ _ _ (Ne.symm hl1_r1), upd_ne _ _ _ _ (Ne.symm hyid_r1)]
        exact hm4r1
      · refine hrepRm.frame fun j hj => ?_
        have hjA : j ∈ ids (ITree.node a1 ak aa ab) := by
          rw [ids_lm_cons hlmA]
          exact List.mem_cons_of_mem _ hj
        have hjr1 : j ≠ r1 := fun e => hr1A (e ▸ hjA)
        have hjyid : j ≠ yid := fun e => hyid_rmA (e ▸ hj)
        have hjl1 : j ≠ l1 := fun e => hl1A (e ▸ hjA)
        rw [upd_ne _ _ _ _ hjl1, upd_ne _ _ _ _ hjyid]
        rw [hfr4 j (fun pid hq e => (hpidfacts pid hq).1
          (e ▸ mem_ids_node.2 (Or.inr (Or.inr (mem_ids_node.2 (Or.inl hjA))))))
          (fun vid hv => Option.some.inj hv ▸ hjyid)]
        rw [upd_ne _ _ _ _ hjr1, upd_ne _ _ _ _ hjyid]
      · refine hrb.frame fun j hj => ?_
        have hjA : j ∉ ids (ITree.node a1 ak aa ab) := fun h => hdisjArb j h hj
        have hjr1 : j ≠ r1 := fun e => hr1rb (e ▸ hj)
        have hjyid : j ≠ yid := fun e => hjA (by rw [e]; exact hyidA)
        have hjl1 : j ≠ l1 := fun e =>
          hl1R (e ▸ mem_ids_node.2 (Or.inr (Or.inr hj)))
        exact hframeAll j hjA hjr1 hjyid (fun pid hq e => (hpidfacts pid hq).1
          (e ▸ mem_ids_node.2 (Or.inr (Or.inr (mem_ids_node.2 (Or.inr (Or.inr hj)))))))
          hjl1
  · -- frame
    intro j hj hjq
    have hjR : j ∉ ids (ITree.node r1 kr (.node a1 ak aa ab) rb) := fun h =>
      hj (mem_ids_node.2 (Or.inr (Or.inr h)))
    refine hframeAll j (fun h => hjR (mem_ids_node.2 (Or.inl h)))
      (fun e => hjR (e ▸ mem_ids_node.2 (Or.inr (Or.inl rfl))))
      (fun e => hj (e ▸ hyidT)) hjq
      (fun e => hj (e ▸ mem_ids_node.2 (Or.inl (mem_ids_node.2 (Or.inr (Or.inl rfl))))))
  · -- evaluation of the delete body
    have hrootL : rootIdO (ITree.node l1 lk la lb) = some l1 := rfl
    have hrootR : rootIdO (ITree.node r1 kr (.node a1 ak aa ab) rb) = some r1 := rfl
    simp only [deleteAt, hrec, hrootL, hrootR, hmin, hy1]
    rw [if_pos hcond]
    simp only [htp1, hm1nid, hrec, hrootL, hrootR, hm1yid, hy1, hm2r1]
    simp only [htp4, hm4nid, hm4yid, hrootL]
    have hm5l1 : upd m4 yid ⟨yrec.key, q, some l1, some r1⟩ l1 = m l1 := by
      rw [upd_ne _ _ _ _ hl1_yid, hm4l1]
    simp only [hm5l1, hrecL]
  · -- the parent slot record
    intro pid pn hq hpn
    obtain ⟨hmem, -⟩ := hpidfacts pid hq
    have hpid_l1 : pid ≠ l1 := fun e => hmem
      (e ▸ mem_ids_node.2 (Or.inl (mem_ids_node.2 (Or.inr (Or.inl rfl)))))
    have hpid_yid : pid ≠ yid := fun e => hmem (e ▸ hyidT)
    have hpid_r1 : pid ≠ r1 := fun e => hmem
      (e ▸ mem_ids_node.2 (Or.inr (Or.inr (mem_ids_node.2 (Or.inr (Or.inl rfl))))))
    have hpid_A : pid ∉ ids (ITree.node a1 ak aa ab) := fun h => hmem
      (mem_ids_node.2 (Or.inr (Or.inr (mem_ids_node.2 (Or.inl h)))))
    have hm3pid : (upd (upd m1 yid ⟨yrec.key, yrec.parent, yrec.left, some r1⟩) r1
        ⟨kr, some yid, rootIdO (removeLeftmost (ITree.node a1 ak aa ab)),
          rootIdO rb⟩) pid = some pn := by
      rw [upd_ne _ _ _ _ hpid_r1, upd_ne _ _ _ _ hpid_yid, hfr1 pid hpid_A hpid_r1]
      exact hpn
    rw [upd_ne _ _ _ _ hpid_l1, upd_ne _ _ _ _ hpid_yid]
    exact hpw4 pid pn hq hm3pid

end BSTGo

namespace BSTGo

open ITree

/-- Effect of the `Delete` body at the located node `nid`, covering all
three source cases: result heap, new subtree representation, frame, root
or parent-slot rewiring. -/
theorem deleteAtNode_sim {nxt : Nat} {groot : Option Nat} {m : Store} {nid : Nat} {k : Int}
    {Tl Tr : ITree} {q : Option Nat}
    (hrep : Rep m q (.node nid k Tl Tr))
    (hnd : (ids (ITree.node nid k Tl Tr)).Nodup)
    (hbd : ∀ i ∈ ids (ITree.node nid k Tl Tr), i < nxt)
    (hctx : q = none ∨ ∃ pid pn, q = some pid ∧
      pid ∉ ids (ITree.node nid k Tl Tr) ∧ m pid = some pn) :
    ∃ m', Rep m' q (deleteAtNode (.node nid k Tl Tr)) ∧
      (∀ j, j ∉ ids (ITree.node nid k Tl Tr) →
        (∀ pid, q = some pid → j ≠ pid) → m' j = m j) ∧
      deleteAt ⟨m, nxt, groot⟩ nid =
        some ⟨m', nxt, slotRoot q (rootIdO (deleteAtNode (.node nid k Tl Tr))) groot⟩ ∧
      (∀ pid pn, q = some pid → m pid = some pn →
        m' pid = some (if pn.left = some nid
          then { pn with left := rootIdO (deleteAtNode (.node nid k Tl Tr)) }
          else { pn with right := rootIdO (deleteAtNode (.node nid k Tl Tr)) })) := by
  have hpidfacts : ∀ pid, q = some pid →
      pid ∉ ids (ITree.node nid k Tl Tr) ∧ ∃ pn, m pid = some pn := by
    intro pid hq
    rcases hctx with h | ⟨pid', pn', hq', hmem', hpn'⟩
    · rw [h] at hq; cases hq
    · rw [hq'] at hq
      cases Option.some.inj hq
      exact ⟨hmem', pn', hpn'⟩
  cases Tl with
  | leaf =>
      cases hrep with
      | node _ _ _ _ _ hrec hTl hTr =>
      have hvex : ∀ vid, rootIdO Tr = some vid → ∃ vr, m vid = some vr := by
        intro vid hv
        cases Tr with
        | leaf => cases hv
        | node r1 kr ra rb =>
            cases Option.some.inj hv
            cases hTr with
            | node _ _ _ _ _ hrecR _ _ => exact ⟨_, hrecR⟩
      have hvmem : ∀ vid, rootIdO Tr = some vid →
          vid ∈ ids (ITree.node nid k .leaf Tr) := by
        intro vid hv
        cases Tr with
        | leaf => cases hv
        | node r1 kr ra rb =>
            cases Option.some.inj hv
            exact mem_ids_node.2 (Or.inr (Or.inr (mem_ids_node.2 (Or.inr (Or.inl rfl)))))
      obtain ⟨m4, htp, hfr, hvw, hpw⟩ :=
        @transplantN m nxt groot nid ⟨k, q, rootIdO .leaf, rootIdO Tr⟩ (rootIdO Tr) q
          hrec rfl (fun pid hq => (hpidfacts pid hq).2) hvex
          (fun vid pid hv hq e => (hpidfacts pid hq).1 (e ▸ hvmem vid hv))
      refine ⟨m4, ?_, ?_, ?_, ?_⟩
      · show Rep m4 q Tr
        cases Tr with
        | leaf => exact .leaf _
        | node r1 kr ra rb =>
            cases hTr with
            | node _ _ _ _ _ hrecR hra hrb =>
            refine Rep.reparentFrame (Rep.node _ _ _ _ _ hrecR hra hrb)
              (nodup_node_iff.1 hnd).2.1 ?_ ?_
            · exact hvw r1 ⟨kr, some nid, rootIdO ra, rootIdO rb⟩ rfl hrecR
            · intro j hj hjr1
              refine hfr j (fun pid hq e => (hpidfacts pid hq).1
                (e ▸ mem_ids_node.2 (Or.inr (Or.inr hj)))) ?_
              intro vid hv
              exact Option.some.inj hv ▸ hjr1
      · intro j hj hjq
        refine hfr j hjq ?_
        intro vid hv e
        exact hj (e ▸ hvmem vid hv)
      · have hrootlf : rootIdO (.leaf : ITree) = (none : Option Nat) := rfl
        simp only [deleteAt, hrec, hrootlf]
        exact htp
      · exact hpw
  | node l1 lk la lb =>
      cases Tr with
      | leaf =>
          cases hrep with
          | node _ _ _ _ _ hrec hTl hTr =>
          cases hTl with
          | node _ _ _ _ _ hrecL hla hlb =>
          have hl1mem : l1 ∈ ids (ITree.node nid k (.node l1 lk la lb) .leaf) :=
            mem_ids_node.2 (Or.inl (mem_ids_node.2 (Or.inr (Or.inl rfl))))
          obtain ⟨m4, htp, hfr, hvw, hpw⟩ :=
            @transplantN m nxt groot nid
              ⟨k, q, rootIdO (ITree.node l1 lk la lb), rootIdO .leaf⟩ (some l1) q
              hrec rfl (fun pid hq => (hpidfacts pid hq).2)
              (fun vid hv => Option.some.inj hv ▸
                ⟨⟨lk, some nid, rootIdO la, rootIdO lb⟩, hrecL⟩)
              (fun vid pid hv hq e => (hpidfacts pid hq).1
                (e ▸ Option.some.inj hv ▸ hl1mem))
          refine ⟨m4, ?_, ?_, ?_, ?_⟩
          · show Rep m4 q (ITree.node l1 lk la lb)
            refine Rep.reparentFrame (Rep.node _ _ _ _ _ hrecL hla hlb)
              (nodup_node_iff.1 hnd).1 ?_ ?_
            · exact hvw l1 ⟨lk, some nid, rootIdO la, rootIdO lb⟩ rfl hrecL
            · intro j hj hjl1
              refine hfr j (fun pid hq e => (hpidfacts pid hq).1
                (e ▸ mem_ids_node.2 (Or.inl hj))) ?_
              intro vid hv
              exact Option.some.inj hv ▸ hjl1
          · intro j hj hjq
            refine hfr j hjq ?_
            intro vid hv e
            exact hj (e ▸ Option.some.inj hv ▸ hl1mem)
          · have hrootL : rootIdO (ITree.node l1 lk la lb) = some l1 := rfl
            have hrootlf : rootIdO (.leaf : ITree) = (none : Option Nat) := rfl
            simp only [deleteAt, hrec, hrootL, hrootlf]
            exact htp
          · exact hpw
      | node r1 kr ra rb =>
          cases ra with
          | leaf =>
              obtain ⟨m', h1, h2, h3, h4⟩ := danceBothShallow hrep hnd hbd hctx
              have hdan : deleteAtNode (ITree.node nid k (.node l1 lk la lb)
                  (.node r1 kr .leaf rb)) = .node r1 kr (.node l1 lk la lb) rb := rfl
              refine ⟨m', ?_, h2, ?_, ?_⟩
              · rw [hdan]
                exact h1
              · rw [hdan]
                exact h3
              · rw [hdan]
                exact h4
          | node a1 ak aa ab =>
              obtain ⟨yid, yk, hlmA, hlmkA⟩ := lm_some a1 ak aa ab
              obtain ⟨m', h1, h2, h3, h4⟩ := danceBothDeep hrep hnd hbd hctx hlmA hlmkA
              have hdan : deleteAtNode (ITree.node nid k (.node l1 lk la lb)
                  (.node r1 kr (.node a1 ak aa ab) rb)) =
                  .node yid yk (.node l1 lk la lb)
                    (.node r1 kr (removeLeftmost (ITree.node a1 ak aa ab)) rb) := by
                have hlmR : lmId (ITree.node r1 kr (.node a1 ak aa ab) rb) = some yid := by
                  simp only [lmId]; exact hlmA
                have hlmkR : lmKey (ITree.node r1 kr (.node a1 ak aa ab) rb) = some yk := by
                  simp only [lmKey]; exact hlmkA
                simp only [deleteAtNode, hlmR, hlmkR]
                rfl
              refine ⟨m', ?_, h2, ?_, ?_⟩
              · rw [hdan]
                exact h1
              · rw [hdan]
                exact h3
              · rw [hdan]
                exact h4

end BSTGo

namespace BSTGo

open ITree

theorem ids_deleteAbs_sublist (key : Int) :
    ∀ T : ITree, (ids (deleteAbs key T)).Sublist (ids T) := by
  intro T
  induction T with
  | leaf => simp [deleteAbs]
  | node i k l r ihl ihr =>
      by_cases hk : k = key
      · simp only [deleteAbs, if_pos hk]
        exact ids_deleteAtNode_sublist i k l r
      · simp only [deleteAbs, if_neg hk]
        by_cases hlt : key < k
        · simp only [if_pos hlt]
          show (ids (deleteAbs key l) ++ i :: ids r).Sublist (ids l ++ i :: ids r)
          exact List.Sublist.append ihl (List.Sublist.refl _)
        · simp only [if_neg hlt]
          show (ids l ++ i :: ids (deleteAbs key r)).Sublist (ids l ++ i :: ids r)
          exact List.Sublist.append (List.Sublist.refl _) (List.Sublist.cons₂ _ ihr)

theorem keys_deleteAtNode_sublist (nid : Nat) (k : Int) (Tl Tr : ITree) :
    (keysOf (deleteAtNode (.node nid k Tl Tr))).Sublist (keysOf (ITree.node nid k Tl Tr)) := by
  cases Tl with
  | leaf =>
      cases Tr with
      | leaf => simp [deleteAtNode, keysOf]
      | node r1 kr ra rb =>
          show (keysOf (ITree.node r1 kr ra rb)).Sublist _
          simp only [keysOf, List.nil_append]
          exact List.Sublist.cons _ (List.Sublist.refl _)
  | node l1 lk la lb =>
      cases Tr with
      | leaf =>
          show (keysOf (ITree.node l1 lk la lb)).Sublist _
          simp only [keysOf]
          exact List.sublist_append_left _ _
      | node r1 kr ra rb =>
          obtain ⟨yid, yk, h1, h2⟩ := lm_some r1 kr ra rb
          have hcons := keys_lm_cons h2
          have hL : keysOf (deleteAtNode (.node nid k (ITree.node l1 lk la lb)
              (ITree.node r1 kr ra rb))) = keysOf (ITree.node l1 lk la lb) ++
                yk :: keysOf (removeLeftmost (ITree.node r1 kr ra rb)) := by
            simp only [deleteAtNode, h1, h2]
            rfl
          have hR : keysOf (ITree.node nid k (ITree.node l1 lk la lb)
              (ITree.node r1 kr ra rb)) = keysOf (ITree.node l1 lk la lb) ++
                k :: yk :: keysOf (removeLeftmost (ITree.node r1 kr ra rb)) := by
            show keysOf (ITree.node l1 lk la lb) ++ k :: keysOf (ITree.node r1 kr ra rb) = _
            rw [hcons]
          rw [hL, hR]
          refine List.Sublist.append (List.Sublist.refl _) ?_
          exact List.Sublist.cons _ (List.Sublist.refl _)

theorem keys_deleteAbs_sublist (key : Int) :
    ∀ T : ITree, (keysOf (deleteAbs key T)).Sublist (keysOf T) := by
  intro T
  induction T with
  | leaf => simp [deleteAbs]
  | node i k l r ihl ihr =>
      by_cases hk : k = key
      · simp only [deleteAbs, if_pos hk]
        exact keys_deleteAtNode_sublist i k l r
      · simp only [deleteAbs, if_neg hk]
        by_cases hlt : key < k
        · simp only [if_pos hlt]
          show (keysOf (deleteAbs key l) ++ k :: keysOf r).Sublist (keysOf l ++ k :: keysOf r)
          exact List.Sublist.append ihl (List.Sublist.refl _)
        · simp only [if_neg hlt]
          show (keysOf l ++ k :: keysOf (deleteAbs key r)).Sublist (keysOf l ++ k :: keysOf r)
          exact List.Sublist.append (List.Sublist.refl _) (List.Sublist.cons₂ _ ihr)

theorem deleteAtNode_isBST {nid : Nat} {k : Int} {Tl Tr : ITree}
    (h : IsBST (.node nid k Tl Tr)) : IsBST (deleteAtNode (.node nid k Tl Tr)) := by
  obtain ⟨hbl, hbr, hl, hr⟩ := h
  cases Tl with
  | leaf => cases Tr with
      | leaf => trivial
      | node r1 kr ra rb => exact hr
  | node l1 lk la lb =>
      cases Tr with
      | leaf => exact hl
      | node r1 kr ra rb =>
          obtain ⟨yid, yk, h1, h2⟩ := lm_some r1 kr ra rb
          have hykmem : yk ∈ keysOf (ITree.node r1 kr ra rb) := lmKey_mem h2
          show IsBST (deleteAtNode _)
          simp only [deleteAtNode, h1, h2]
          refine ⟨?_, ?_, hl, removeLeftmost_isBST hr⟩
          · intro x hx
            have h3 := hbl x hx
            have h4 := hbr yk hykmem
            omega
          · intro x hx
            have hxm : x ∈ keysOf (ITree.node r1 kr ra rb) := by
              rw [keys_lm_cons h2]
              exact List.mem_cons_of_mem _ hx
            exact bst_lm_min hr h2 x hxm

theorem deleteAbs_isBST (key : Int) :
    ∀ {T : ITree}, IsBST T → IsBST (deleteAbs key T) := by
  intro T
  induction T with
  | leaf => intro h; trivial
  | node i k l r ihl ihr =>
      intro h
      by_cases hk : k = key
      · simp only [deleteAbs, if_pos hk]
        exact deleteAtNode_isBST h
      · obtain ⟨hbl, hbr, hl, hr⟩ := h
        simp only [deleteAbs, if_neg hk]
        by_cases hlt : key < k
        · simp only [if_pos hlt]
          exact ⟨fun x hx => hbl x ((keys_deleteAbs_sublist key l).subset hx), hbr,
            ihl hl, hr⟩
        · simp only [if_neg hlt]
          exact ⟨hbl, fun x hx => hbr x ((keys_deleteAbs_sublist key r).subset hx),
            hl, ihr hr⟩

open List in
/-- Deleting a found key removes exactly one occurrence of it. -/
theorem keys_deleteAbs_perm (key : Int) :
    ∀ {T : ITree} {nid : Nat}, searchAbs key T = some nid →
      keysOf T ~ key :: keysOf (deleteAbs key T) := by
  intro T
  induction T with
  | leaf => intro nid h; cases h
  | node i k l r ihl ihr =>
      intro nid hs
      by_cases hk : k = key
      · subst hk
        have hd : deleteAbs k (ITree.node i k l r) = deleteAtNode (ITree.node i k l r) := by
          simp [deleteAbs]
        rw [hd]
        cases l with
        | leaf =>
            cases r with
            | leaf => simp [keysOf, deleteAtNode]
            | node r1 kr ra rb =>
                show keysOf .leaf ++ k :: keysOf (ITree.node r1 kr ra rb) ~ _
                simp [deleteAtNode, keysOf]
        | node l1 lk la lb =>
            cases r with
            | leaf =>
                show keysOf (ITree.node l1 lk la lb) ++ k :: keysOf .leaf ~ _
                have := @List.perm_middle _ k (keysOf (ITree.node l1 lk la lb))
                  (keysOf ITree.leaf)
                simpa [deleteAtNode, keysOf] using this
            | node r1 kr ra rb =>
                obtain ⟨yid, yk, h1, h2⟩ := lm_some r1 kr ra rb
                have hcons := keys_lm_cons h2
                have hL : keysOf (deleteAtNode (.node i k (ITree.node l1 lk la lb)
                    (ITree.node r1 kr ra rb))) = keysOf (ITree.node l1 lk la lb) ++
                      yk :: keysOf (removeLeftmost (ITree.node r1 kr ra rb)) := by
                  simp only [deleteAtNode, h1, h2]
                  rfl
                rw [hL]
                show keysOf (ITree.node l1 lk la lb) ++ k :: keysOf (ITree.node r1 kr ra rb) ~ _
                rw [hcons]
                exact List.perm_middle
      · simp only [searchAbs, if_neg hk] at hs
        simp only [deleteAbs, if_neg hk]
        by_cases hlt : key < k
        · rw [if_pos hlt] at hs
          rw [if_pos hlt]
          have ih := ihl hs
          show keysOf l ++ k :: keysOf r ~ key :: (keysOf (deleteAbs key l) ++ k :: keysOf r)
          calc keysOf l ++ k :: keysOf r
              ~ (key :: keysOf (deleteAbs key l)) ++ k :: keysOf r :=
                ih.append_right _
            _ = key :: (keysOf (deleteAbs key l) ++ k :: keysOf r) := rfl
        · rw [if_neg hlt] at hs
          rw [if_neg hlt]
          have ih := ihr hs
          show keysOf l ++ k :: keysOf r ~ key :: (keysOf l ++ k :: keysOf (deleteAbs key r))
          calc keysOf l ++ k :: keysOf r
              ~ keysOf l ++ k :: (key :: keysOf (deleteAbs key r)) := by
                exact (ih.cons k).append_left _
            _ = (keysOf l ++ [k]) ++ key :: keysOf (deleteAbs key r) := by simp
            _ ~ key :: ((keysOf l ++ [k]) ++ keysOf (deleteAbs key r)) := List.perm_middle
            _ = key :: (keysOf l ++ k :: keysOf (deleteAbs key r)) := by simp

end BSTGo

namespace BSTGo

open ITree

/-- The record of the node found by the search carries the searched key. -/
theorem searchAbs_found_key {key : Int} {m : Store} :
    ∀ {T : ITree} {p : Option Nat} {nid : Nat}, Rep m p T →
      searchAbs key T = some nid → ∃ rec : GNode, m nid = some rec ∧ rec.key = key := by
  intro T
  induction T with
  | leaf => intro p nid _ h; cases h
  | node i k l r ihl ihr =>
      intro p nid hrep hs
      cases hrep with
      | node _ _ _ _ _ hrec hl hr =>
      by_cases hk : k = key
      · simp only [searchAbs, if_pos hk] at hs
        cases Option.some.inj hs
        exact ⟨_, hrec, hk⟩
      · simp only [searchAbs, if_neg hk] at hs
        by_cases hlt : key < k
        · rw [if_pos hlt] at hs
          exact ihl hl hs
        · rw [if_neg hlt] at hs
          exact ihr hr hs

/-- On a BST the search finds every present key. -/
theorem searchAbs_isSome_of_mem {key : Int} :
    ∀ {T : ITree}, IsBST T → key ∈ keysOf T → ∃ nid, searchAbs key T = some nid := by
  intro T
  induction T with
  | leaf => intro _ h; simp [keysOf] at h
  | node i k l r ihl ihr =>
      intro hbst hmem
      obtain ⟨hbl, hbr, hl, hr⟩ := hbst
      by_cases hk : k = key
      · exact ⟨i, by simp [searchAbs, hk]⟩
      · rcases mem_keys_node.1 hmem with h | h | h
        · have hlt : key < k := hbl key h
          obtain ⟨nid, hn⟩ := ihl hl h
          exact ⟨nid, by simp [searchAbs, hk, hlt, hn]⟩
        · exact absurd h.symm hk
        · have hge : k ≤ key := hbr key h
          have hlt : ¬ key < k := by omega
          obtain ⟨nid, hn⟩ := ihr hr h
          exact ⟨nid, by simp [searchAbs, hk, hlt, hn]⟩

/-- The in-order key sequence of a BST is non-decreasing. -/
theorem keys_pairwise_le : ∀ {T : ITree}, IsBST T →
    (keysOf T).Pairwise (· ≤ ·) := by
  intro T
  induction T with
  | leaf => intro _; simp [keysOf]
  | node i k l r ihl ihr =>
      intro hbst
      obtain ⟨hbl, hbr, hl, hr⟩ := hbst
      show ((keysOf l) ++ k :: keysOf r).Pairwise (· ≤ ·)
      rw [List.pairwise_append]
      refine ⟨ihl hl, ?_, ?_⟩
      · rw [List.pairwise_cons]
        exact ⟨hbr, ihr hr⟩
      · intro x hx y hy
        have h1 : x < k := hbl x hx
        rcases List.mem_cons.1 hy with h | h
        · omega
        · have := hbr y h
          omega

/-- Searching for a freshly inserted absent key finds the new node. -/
theorem searchAbs_insertAbs {key : Int} {nid : Nat} :
    ∀ {T : ITree}, key ∉ keysOf T →
      searchAbs key (insertAbs key nid T) = some nid := by
  intro T
  induction T with
  | leaf => intro _; simp [insertAbs, searchAbs]
  | node i k l r ihl ihr =>
      intro hnin
      rw [mem_keys_node] at hnin
      push_neg at hnin
      have hk : k ≠ key := fun e => hnin.2.1 e.symm
      by_cases hlt : key < k
      · simp only [insertAbs, if_pos hlt, searchAbs, if_neg hk, if_pos hlt]
        exact ihl hnin.1
      · simp only [insertAbs, if_neg hlt, searchAbs, if_neg hk, if_neg hlt]
        exact ihr hnin.2.2

/-- Deleting a freshly inserted absent key restores the tree exactly. -/
theorem deleteAbs_insertAbs {key : Int} {nid : Nat} :
    ∀ {T : ITree}, key ∉ keysOf T →
      deleteAbs key (insertAbs key nid T) = T := by
  intro T
  induction T with
  | leaf => intro _; simp [insertAbs, deleteAbs, deleteAtNode]
  | node i k l r ihl ihr =>
      intro hnin
      rw [mem_keys_node] at hnin
      push_neg at hnin
      have hk : k ≠ key := fun e => hnin.2.1 e.symm
      by_cases hlt : key < k
      · simp only [insertAbs, if_pos hlt, deleteAbs, if_neg hk, if_pos hlt]
        rw [ihl hnin.1]
      · simp only [insertAbs, if_neg hlt, deleteAbs, if_neg hk, if_neg hlt]
        rw [ihr hnin.2.2]

end BSTGo

namespace BSTGo

open ITree

/-- Path lemma: deleting a key found strictly inside a subtree hanging
off `pid` rewrites only that subtree and `pid`'s child slot. -/
theorem deleteAt_path {nxt : Nat} {groot : Option Nat} (key : Int) :
    ∀ (Tsub : ITree) (m : Store) (pid : Nat) (pn : GNode) (nid : Nat),
      Rep m (some pid) Tsub → (ids Tsub).Nodup → (∀ i ∈ ids Tsub, i < nxt) →
      pid ∉ ids Tsub → m pid = some pn →
      (pn.left = rootIdO Tsub ∨ (pn.left ≠ rootIdO Tsub ∧ pn.right = rootIdO Tsub)) →
      searchAbs key Tsub = some nid →
      ∃ m', deleteAt ⟨m, nxt, groot⟩ nid = some ⟨m', nxt, groot⟩ ∧
        Rep m' (some pid) (deleteAbs key Tsub) ∧
        m' pid = some (if pn.left = rootIdO Tsub
          then { pn with left := rootIdO (deleteAbs key Tsub) }
          else { pn with right := rootIdO (deleteAbs key Tsub) }) ∧
        (∀ j, j ∉ ids Tsub → j ≠ pid → m' j = m j) := by
  intro Tsub
  induction Tsub with
  | leaf => intro m pid pn nid _ _ _ _ _ _ h; cases h
  | node i k l r ihl ihr =>
      intro m pid pn nid hrep hnd hbd hpnotin hpn hside hs
      have hpid_ne_i : pid ≠ i := fun e => hpnotin (e ▸ mem_ids_node.2 (Or.inr (Or.inl rfl)))
      rcases nodup_node_iff.1 hnd with ⟨hndl, hndr, hil, hir, hdisj⟩
      by_cases hk : k = key
      · -- the key is at the root of this subtree
        simp only [searchAbs, if_pos hk] at hs
        cases Option.some.inj hs
        obtain ⟨m', hrep', hfr', heval, hpw'⟩ :=
          @deleteAtNode_sim nxt groot m i k l r (some pid) hrep hnd hbd
            (Or.inr ⟨pid, pn, rfl, hpnotin, hpn⟩)
        have hda : deleteAbs key (ITree.node i k l r) =
            deleteAtNode (ITree.node i k l r) := by
          simp [deleteAbs, hk]
        refine ⟨m', ?_, ?_, ?_, ?_⟩
        · exact heval
        · rw [hda]
          exact hrep'
        · rw [hda]
          exact hpw' pid pn rfl hpn
        · intro j hj hjp
          exact hfr' j hj (fun pid' hq' => Option.some.inj hq' ▸ hjp)
      · simp only [searchAbs, if_neg hk] at hs
        cases hrep with
        | node _ _ _ _ _ hrec hl hr =>
        by_cases hlt : key < k
        · rw [if_pos hlt] at hs
          obtain ⟨m', heval, hrep', hirec, hfr'⟩ :=
            ihl m i ⟨k, some pid, rootIdO l, rootIdO r⟩ nid hl hndl
              (fun j hj => hbd j (mem_ids_node.2 (Or.inl hj))) hil hrec
              (Or.inl rfl) hs
          rw [if_pos rfl] at hirec
          have hda : deleteAbs key (ITree.node i k l r) =
              .node i k (deleteAbs key l) r := by
            simp [deleteAbs, hk, hlt]
          have hout : m' pid = m pid := by
            refine hfr' pid (fun h => hpnotin (mem_ids_node.2 (Or.inl h))) hpid_ne_i
          refine ⟨m', heval, ?_, ?_, ?_⟩
          · rw [hda]
            refine Rep.node (some pid) i k _ r hirec hrep' ?_
            refine hr.frame fun j hj => ?_
            exact hfr' j (fun h => hdisj j h hj) (fun e => hir (e ▸ hj))
          · rw [hda]
            have hro : rootIdO (.node i k (deleteAbs key l) r) = some i := rfl
            rcases hside with hpl | ⟨hnl, hpr⟩
            · have hpl' : pn.left = some i := hpl
              rw [if_pos hpl, hro, ← hpl']
              rw [hout, hpn]
            · have hpr' : pn.right = some i := hpr
              rw [if_neg hnl, hro, ← hpr']
              rw [hout, hpn]
          · intro j hj hjp
            refine hfr' j (fun h => hj (mem_ids_node.2 (Or.inl h))) ?_
            intro e
            exact hj (mem_ids_node.2 (Or.inr (Or.inl e)))
        · rw [if_neg hlt] at hs
          have hne : ¬ ((⟨k, some pid, rootIdO l, rootIdO r⟩ : GNode).left = rootIdO r) := by
            cases l with
            | leaf =>
                cases r with
                | leaf => exact absurd hs (by simp [searchAbs])
                | node r1 kr ra rb => simp [rootIdO]
            | node l1 lk la lb =>
                cases r with
                | leaf => exact absurd hs (by simp [searchAbs])
                | node r1 kr ra rb =>
                    intro e
                    have h5 : l1 = r1 := Option.some.inj e
                    refine hdisj l1 (mem_ids_node.2 (Or.inr (Or.inl rfl))) ?_
                    rw [h5]
                    exact mem_ids_node.2 (Or.inr (Or.inl rfl))
          obtain ⟨m', heval, hrep', hirec, hfr'⟩ :=
            ihr m i ⟨k, some pid, rootIdO l, rootIdO r⟩ nid hr hndr
              (fun j hj => hbd j (mem_ids_node.2 (Or.inr (Or.inr hj)))) hir hrec
              (Or.inr ⟨hne, rfl⟩) hs
          rw [if_neg hne] at hirec
          have hda : deleteAbs key (ITree.node i k l r) =
              .node i k l (deleteAbs key r) := by
            simp [deleteAbs, hk, hlt]
          have hout : m' pid = m pid := by
            refine hfr' pid (fun h => hpnotin (mem_ids_node.2 (Or.inr (Or.inr h))))
              hpid_ne_i
          refine ⟨m', heval, ?_, ?_, ?_⟩
          · rw [hda]
            refine Rep.node (some pid) i k l _ hirec ?_ hrep'
            refine hl.frame fun j hj => ?_
            exact hfr' j (fun h => hdisj j hj h) (fun e => hil (e ▸ hj))
          · rw [hda]
            have hro : rootIdO (.node i k l (deleteAbs key r)) = some i := rfl
            rcases hside with hpl | ⟨hnl, hpr⟩
            · have hpl' : pn.left = some i := hpl
              rw [if_pos hpl, hro, ← hpl']
              rw [hout, hpn]
            · have hpr' : pn.right = some i := hpr
              rw [if_neg hnl, hro, ← hpr']
              rw [hout, hpn]
          · intro j hj hjp
            refine hfr' j (fun h => hj (mem_ids_node.2 (Or.inr (Or.inr h)))) ?_
            intro e
            exact hj (mem_ids_node.2 (Or.inr (Or.inl e)))

end BSTGo

namespace BSTGo

open ITree

/-- `Delete` of a key the search can find succeeds, keeps the allocation
counter, and realises `deleteAbs`. -/
theorem deleteOp_sim {t : BT} {T : ITree} (key : Int) (h : WFT t T) {nid : Nat}
    (hs : searchAbs key T = some nid) :
    ∃ t', deleteOp t key = some t' ∧ WFT t' (deleteAbs key T) ∧ t'.next = t.next := by
  obtain ⟨hroot, hrep, hnd, hbd, hbst⟩ := h
  have hsz : size T < t.next + 1 := Nat.lt_succ_of_le (size_le_of_nodup_lt hnd hbd)
  have hsl : searchLoop t.mem key (t.next + 1) t.root = some (some nid) := by
    rw [hroot, searchLoop_sim key T none _ hrep hsz, hs]
  cases T with
  | leaf => cases hs
  | node i k l r =>
      by_cases hk : k = key
      · simp only [searchAbs, if_pos hk] at hs
        cases Option.some.inj hs
        obtain ⟨m', hrep', hfr', heval, hpw'⟩ :=
          @deleteAtNode_sim t.next t.root t.mem nid k l r none hrep hnd hbd (Or.inl rfl)
        have hda : deleteAbs key (ITree.node nid k l r) =
            deleteAtNode (ITree.node nid k l r) := by
          simp [deleteAbs, hk]
        refine ⟨⟨m', t.next, rootIdO (deleteAtNode (ITree.node nid k l r))⟩, ?_, ?_, rfl⟩
        · show deleteOp t key = _
          simp only [deleteOp, hsl]
          exact heval
        · rw [hda]
          refine ⟨rfl, hrep', ?_, ?_, deleteAtNode_isBST hbst⟩
          · exact List.Nodup.sublist (ids_deleteAtNode_sublist nid k l r) hnd
          · intro j hj
            exact hbd j ((ids_deleteAtNode_sublist nid k l r).subset hj)
      · simp only [searchAbs, if_neg hk] at hs
        rcases nodup_node_iff.1 hnd with ⟨hndl, hndr, hil, hir, hdisj⟩
        obtain ⟨hbl, hbr, hbstl, hbstr⟩ := hbst
        cases hrep with
        | node _ _ _ _ _ hrec hl hr =>
        by_cases hlt : key < k
        · rw [if_pos hlt] at hs
          obtain ⟨m', heval, hrep', hirec, hfr'⟩ :=
            @deleteAt_path t.next t.root key l t.mem i
              ⟨k, none, rootIdO l, rootIdO r⟩ nid hl hndl
              (fun j hj => hbd j (mem_ids_node.2 (Or.inl hj))) hil hrec
              (Or.inl rfl) hs
          rw [if_pos rfl] at hirec
          have hsub : (ids (ITree.node i k (deleteAbs key l) r)).Sublist
              (ids (ITree.node i k l r)) := by
            show (ids (deleteAbs key l) ++ i :: ids r).Sublist (ids l ++ i :: ids r)
            exact List.Sublist.append (ids_deleteAbs_sublist key l) (List.Sublist.refl _)
          have hda : deleteAbs key (ITree.node i k l r) =
              .node i k (deleteAbs key l) r := by
            simp [deleteAbs, hk, hlt]
          refine ⟨⟨m', t.next, t.root⟩, ?_, ?_, rfl⟩
          · show deleteOp t key = _
            simp only [deleteOp, hsl]
            exact heval
          · rw [hda]
            refine ⟨?_, ?_, ?_, ?_, ?_⟩
            · show t.root = _
              rw [hroot]
              rfl
            · refine Rep.node none i k _ r hirec hrep' ?_
              refine hr.frame fun j hj =>
                hfr' j (fun h => hdisj j h hj) (fun e => hir (e ▸ hj))
            · exact List.Nodup.sublist hsub hnd
            · intro j hj
              exact hbd j (hsub.subset hj)
            · exact ⟨fun x hx => hbl x ((keys_deleteAbs_sublist key l).subset hx),
                hbr, deleteAbs_isBST key hbstl, hbstr⟩
        · rw [if_neg hlt] at hs
          have hne : ¬ ((⟨k, none, rootIdO l, rootIdO r⟩ : GNode).left = rootIdO r) := by
            cases l with
            | leaf =>
                cases r with
                | leaf => exact absurd hs (by simp [searchAbs])
                | node r1 kr ra rb => simp [rootIdO]
            | node l1 lk la lb =>
                cases r with
                | leaf => exact absurd hs (by simp [searchAbs])
                | node r1 kr ra rb =>
                    intro e
                    have h5 : l1 = r1 := Option.some.inj e
                    refine hdisj l1 (mem_ids_node.2 (Or.inr (Or.inl rfl))) ?_
                    rw [h5]
                    exact mem_ids_node.2 (Or.inr (Or.inl rfl))
          obtain ⟨m', heval, hrep', hirec, hfr'⟩ :=
            @deleteAt_path t.next t.root key r t.mem i
              ⟨k, none, rootIdO l, rootIdO r⟩ nid hr hndr
              (fun j hj => hbd j (mem_ids_node.2 (Or.inr (Or.inr hj)))) hir hrec
              (Or.inr ⟨hne, rfl⟩) hs
          rw [if_neg hne] at hirec
          have hsub : (ids (ITree.node i k l (deleteAbs key r))).Sublist
              (ids (ITree.node i k l r)) := by
            show (ids l ++ i :: ids (deleteAbs key r)).Sublist (ids l ++ i :: ids r)
            exact List.Sublist.append (List.Sublist.refl _)
              (List.Sublist.cons₂ _ (ids_deleteAbs_sublist key r))
          have hda : deleteAbs key (ITree.node i k l r) =
              .node i k l (deleteAbs key r) := by
            simp [deleteAbs, hk, hlt]
          refine ⟨⟨m', t.next, t.root⟩, ?_, ?_, rfl⟩
          · show deleteOp t key = _
            simp only [deleteOp, hsl]
            exact heval
          · rw [hda]
            refine ⟨?_, ?_, ?_, ?_, ?_⟩
            · show t.root = _
              rw [hroot]
              rfl
            · refine Rep.node none i k l _ hirec ?_ hrep'
              refine hl.frame fun j hj =>
                hfr' j (fun h => hdisj j hj h) (fun e => hil (e ▸ hj))
            · exact List.Nodup.sublist hsub hnd
            · intro j hj
              exact hbd j (hsub.subset hj)
            · exact ⟨hbl, fun x hx => hbr x ((keys_deleteAbs_sublist key r).subset hx),
                hbstl, deleteAbs_isBST key hbstr⟩

end BSTGo

namespace BSTGo

open ITree

/-- The empty tree is well formed. -/
theorem wft_empty : WFT emptyBT .leaf :=
  ⟨rfl, .leaf none, List.nodup_nil, fun i hi => absurd hi (by simp [ids]), trivial⟩

/-- One mutating call preserves well-formedness; keys other than a
deleted one survive, and an inserted key is present afterwards. -/
theorem applyOp_sim {t : BT} {T : ITree} {op : Op} {t' : BT} (h : WFT t T)
    (hrun : applyOp t op = some t') :
    ∃ T', WFT t' T' ∧
      (∀ x, x ∈ keysOf T → (∀ k', op = .del k' → x ≠ k') → x ∈ keysOf T') ∧
      (∀ k', op = .ins k' → k' ∈ keysOf T') := by
  cases op with
  | ins k =>
      obtain ⟨t'', hop, hwft, -⟩ := insertOp_sim k h
      simp only [applyOp] at hrun
      rw [hop] at hrun
      cases Option.some.inj hrun
      refine ⟨insertAbs k t.next T, hwft, ?_, ?_⟩
      · intro x hx _
        exact mem_keys_insertAbs.2 (Or.inl hx)
      · intro k' hk'
        cases hk'
        exact mem_keys_insertAbs.2 (Or.inr rfl)
  | del k =>
      simp only [applyOp] at hrun
      obtain ⟨hroot, hrep, hnd, hbd, hbst⟩ := h
      have hsz : size T < t.next + 1 := Nat.lt_succ_of_le (size_le_of_nodup_lt hnd hbd)
      have hsl : searchLoop t.mem k (t.next + 1) t.root = some (searchAbs k T) := by
        rw [hroot]
        exact searchLoop_sim k T none _ hrep hsz
      obtain ⟨nid, hnid⟩ : ∃ nid, searchAbs k T = some nid := by
        cases how : searchAbs k T with
        | none =>
            exfalso
            rw [deleteOp, hsl, how] at hrun
            cases hrun
        | some nid => exact ⟨nid, rfl⟩
      obtain ⟨t'', hop, hwft, -⟩ := deleteOp_sim k ⟨hroot, hrep, hnd, hbd, hbst⟩ hnid
      rw [hop] at hrun
      cases Option.some.inj hrun
      refine ⟨deleteAbs k T, hwft, ?_, ?_⟩
      · intro x hx hne
        have hperm := keys_deleteAbs_perm k hnid
        have := hperm.mem_iff.1 hx
        rcases List.mem_cons.1 this with h1 | h1
        · exact absurd h1 (hne k rfl)
        · exact h1
      · intro k' hk'
        cases hk'

/-- Splitting a run at a list append. -/
theorem runOps_append (ops1 ops2 : List Op) :
    ∀ t : BT, runOps t (ops1 ++ ops2) =
      match runOps t ops1 with
      | none => none
      | some t1 => runOps t1 ops2 := by
  induction ops1 with
  | nil => intro t; rfl
  | cons op rest ih =>
      intro t
      show runOps t (op :: (rest ++ ops2)) = _
      simp only [runOps]
      cases applyOp t op with
      | none => rfl
      | some t1 => exact ih t1

/-- Every successful run from a well-formed state ends well formed, and
a key present at the start survives when no operation deletes it. -/
theorem runOps_wft_keys :
    ∀ (ops : List Op) (t : BT) (T : ITree), WFT t T →
      ∀ t', runOps t ops = some t' →
        ∃ T', WFT t' T' ∧
          ∀ x, x ∈ keysOf T → (∀ k', (Op.del k') ∈ ops → x ≠ k') → x ∈ keysOf T' := by
  intro ops
  induction ops with
  | nil =>
      intro t T h t' hrun
      cases Option.some.inj hrun
      exact ⟨T, h, fun x hx _ => hx⟩
  | cons op rest ih =>
      intro t T h t' hrun
      simp only [runOps] at hrun
      cases hop : applyOp t op with
      | none => rw [hop] at hrun; cases hrun
      | some t1 =>
          rw [hop] at hrun
          obtain ⟨T1, h1, hkeep, -⟩ := applyOp_sim h hop
          obtain ⟨T', h', hkeep'⟩ := ih t1 T1 h1 t' hrun
          refine ⟨T', h', ?_⟩
          intro x hx hnd
          refine hkeep' x (hkeep x hx ?_) ?_
          · intro k' hk'
            exact hnd k' (hk' ▸ List.mem_cons_self _ _)
          · intro k' hmem
            exact hnd k' (List.mem_cons_of_mem _ hmem)

/-- Every successful run from the empty tree ends in a well-formed
state. -/
theorem runOps_wft {ops : List Op} {t : BT}
    (hrun : runOps emptyBT ops = some t) : ∃ T, WFT t T := by
  obtain ⟨T, h, -⟩ := runOps_wft_keys ops emptyBT .leaf wft_empty t hrun
  exact ⟨T, h⟩

end BSTGo

namespace BSTGo

open ITree

open List in
theorem preIds_perm_ids : ∀ T : ITree, preIds T ~ ids T := by
  intro T
  induction T with
  | leaf => exact List.Perm.refl _
  | node i k l r ihl ihr =>
      show (i :: (preIds l ++ preIds r)) ~ (ids l ++ i :: ids r)
      calc i :: (preIds l ++ preIds r)
          ~ i :: (ids l ++ ids r) := ((ihl.append ihr).cons i)
        _ ~ ids l ++ i :: ids r := (List.perm_middle).symm

/-- Parent consistency of the heap links below a represented subtree. -/
theorem rep_parent_ok {m : Store} :
    ∀ {T : ITree} {p : Option Nat}, Rep m p T →
      ∀ i ∈ ids T, ∀ n : GNode, m i = some n →
        (∀ c, n.left = some c → ∃ cn, m c = some cn ∧ cn.parent = some i) ∧
        (∀ c, n.right = some c → ∃ cn, m c = some cn ∧ cn.parent = some i) := by
  intro T
  induction T with
  | leaf => intro p _ i hi; simp [ids] at hi
  | node i0 k l r ihl ihr =>
      intro p hrep i hi n hn
      cases hrep with
      | node _ _ _ _ _ hrec hl hr =>
      rcases mem_ids_node.1 hi with h | h | h
      · exact ihl hl i h n hn
      · subst h
        rw [hrec] at hn
        cases Option.some.inj hn
        constructor
        · intro c hc
          cases l with
          | leaf => cases hc
          | node c1 kc ca cb =>
              cases Option.some.inj hc
              cases hl with
              | node _ _ _ _ _ hrecc _ _ => exact ⟨_, hrecc, rfl⟩
        · intro c hc
          cases r with
          | leaf => cases hc
          | node c1 kc ca cb =>
              cases Option.some.inj hc
              cases hr with
              | node _ _ _ _ _ hrecc _ _ => exact ⟨_, hrecc, rfl⟩
      · exact ihr hr i h n hn

/-- BST key ordering read back from the heap through the in-order walk of
the two child pointers of every reachable record. -/
theorem rep_bst_ok {m : Store} {fuel : Nat} :
    ∀ {T : ITree} {p : Option Nat}, Rep m p T → IsBST T → size T < fuel →
      ∀ i ∈ ids T, ∀ n : GNode, m i = some n →
        ∃ kl kr, inorderF m fuel n.left = some kl ∧ inorderF m fuel n.right = some kr ∧
          (∀ x ∈ kl, x < n.key) ∧ (∀ x ∈ kr, n.key ≤ x) := by
  intro T
  induction T with
  | leaf => intro p _ _ _ i hi; simp [ids] at hi
  | node i0 k l r ihl ihr =>
      intro p hrep hbst hsz i hi n hn
      obtain ⟨hbl, hbr, hbstl, hbstr⟩ := hbst
      cases hrep with
      | node _ _ _ _ _ hrec hl hr =>
      have hszl : size l < fuel := by
        have := size_node i0 k l r
        omega
      have hszr : size r < fuel := by
        have := size_node i0 k l r
        omega
      rcases mem_ids_node.1 hi with h | h | h
      · exact ihl hl hbstl hszl i h n hn
      · subst h
        rw [hrec] at hn
        cases Option.some.inj hn
        refine ⟨keysOf l, keysOf r, ?_, ?_, hbl, hbr⟩
        · exact inorderF_sim l (some i) fuel hl hszl
        · exact inorderF_sim r (some i) fuel hr hszr
      · exact ihr hr hbstr hszr i h n hn

end BSTGo

namespace BSTGo

open ITree

theorem searchLoop_eq_recSearchLoop (m : Store) (key : Int) :
    ∀ (fuel : Nat) (c : Option Nat),
      searchLoop m key fuel c = recSearchLoop m key fuel c := by
  intro fuel
  induction fuel with
  | zero => intro c; cases c <;> rfl
  | succ f ih =>
      intro c
      cases c with
      | none => rfl
      | some i =>
          show (match m i with
            | none => none
            | some n =>
              if n.key = key then some (some i)
              else searchLoop m key f (if key < n.key then n.left else n.right)) =
            (match m i with
            | none => none
            | some n =>
              if n.key = key then some (some i)
              else if key < n.key then recSearchLoop m key f n.left
              else recSearchLoop m key f n.right)
          cases m i with
          | none => rfl
          | some n =>
              by_cases hk : n.key = key
              · simp only [if_pos hk]
              · by_cases hlt : key < n.key
                · simp only [if_neg hk, if_pos hlt]
                  exact ih n.left
                · simp only [if_neg hk, if_neg hlt]
                  exact ih n.right

/-- C6: for every tree state and key, the iterative `Search` and
`RecursiveSearch` return the same node (or both report absence). -/
theorem C6_search_recursiveSearch_equal :
    ∀ (t : BT) (key : Int), searchOp t key = recSearchOp t key := by
  intro t key
  exact searchLoop_eq_recSearchLoop t.mem key (t.next + 1) t.root

/-- State-passing form of `Search`: the body of the Go method performs no
field assignment, so the receiver heap is returned unchanged. -/
def searchSt (t : BT) (k : Int) : BT × Option (Option Nat) := (t, searchOp t k)

/-- State-passing form of `RecursiveSearch` (read-only body). -/
def recSearchSt (t : BT) (k : Int) : BT × Option (Option Nat) := (t, recSearchOp t k)

/-- State-passing form of `Min` (read-only body). -/
def minSt (t : BT) : BT × Option (Option Nat) := (t, minOp t)

/-- State-passing form of `Max` (read-only body). -/
def maxSt (t : BT) : BT × Option (Option Nat) := (t, maxOp t)

/-- State-passing form of `Succ` (read-only body). -/
def succSt (t : BT) (k : Int) : BT × Option (Option Nat) := (t, succOp t k)

/-- State-passing form of `Pred` (read-only body). -/
def predSt (t : BT) (k : Int) : BT × Option (Option Nat) := (t, predOp t k)

/-- State-passing form of `InOrderWalk` (read-only body, local slice). -/
def inorderSt (t : BT) : BT × Option (List Int) := (t, inorderW t)

/-- State-passing form of `PreOrderWalk` (read-only body). -/
def preorderSt (t : BT) : BT × Option (List Int) := (t, preorderW t)

/-- State-passing form of `PostOrderWalk` (read-only body). -/
def postorderSt (t : BT) : BT × Option (List Int) := (t, postorderW t)

/-- C10: `Search`, `RecursiveSearch`, `Min`, `Max`, `Succ`, `Pred` and the
three walks leave every node record and the root pointer unchanged: their
state-passing translations return the receiver tree as it was. -/
theorem C10_queries_leave_tree_unchanged :
    ∀ (t : BT) (k : Int),
      (searchSt t k).1 = t ∧ (recSearchSt t k).1 = t ∧ (minSt t).1 = t ∧
      (maxSt t).1 = t ∧ (succSt t k).1 = t ∧ (predSt t k).1 = t ∧
      (inorderSt t).1 = t ∧ (preorderSt t).1 = t ∧ (postorderSt t).1 = t :=
  fun _ _ => ⟨rfl, rfl, rfl, rfl, rfl, rfl, rfl, rfl, rfl⟩

/-- The scenario call sequence of §8 of the spec. -/
def c7ops : List Op := [.ins 6, .ins 4, .ins 7, .ins 2, .ins 5, .ins 8]

/-- Tree after inserting `[6,4,7,2,5,8]` into the empty tree. -/
def tree7 : BT := (runOps emptyBT c7ops).getD emptyBT

/-- Tree after additionally running `Delete(4)`. -/
def tree7d4 : BT := (deleteOp tree7 4).getD emptyBT

/-- Tree after additionally running `Delete(6)`. -/
def tree7d46 : BT := (deleteOp tree7d4 6).getD emptyBT

end BSTGo

namespace BSTGo

/-- C7: inserting `[6,4,7,2,5,8]` into a fresh tree yields
`InOrder = [2,4,5,6,7,8]`, `PreOrder = [6,4,2,5,7,8]`,
`PostOrder = [2,5,4,8,7,6]`; the root (node 0) has key 6, its left child
(node 1) key 4, its right child (node 2) key 7 with no left child;
`Delete(4)` succeeds and the root's left child becomes node 4 with key 5;
the subsequent `Delete(6)` succeeds and the root becomes node 2 with
key 7. -/
theorem C7_scenario :
    runOps emptyBT c7ops = some tree7 ∧
    inorderW tree7 = some [2, 4, 5, 6, 7, 8] ∧
    preorderW tree7 = some [6, 4, 2, 5, 7, 8] ∧
    postorderW tree7 = some [2, 5, 4, 8, 7, 6] ∧
    tree7.root = some 0 ∧
    tree7.mem 0 = some ⟨6, none, some 1, some 2⟩ ∧
    tree7.mem 1 = some ⟨4, some 0, some 3, some 4⟩ ∧
    tree7.mem 2 = some ⟨7, some 0, none, some 5⟩ ∧
    deleteOp tree7 4 = some tree7d4 ∧
    tree7d4.root = some 0 ∧
    tree7d4.mem 0 = some ⟨6, none, some 4, some 2⟩ ∧
    tree7d4.mem 4 = some ⟨5, some 0, some 3, none⟩ ∧
    deleteOp tree7d4 6 = some tree7d46 ∧
    tree7d46.root = some 2 ∧
    tree7d46.mem 2 = some ⟨7, none, some 4, some 5⟩ :=
  ⟨rfl, rfl, rfl, rfl, rfl, rfl, rfl, rfl, rfl, rfl, rfl, rfl, rfl, rfl, rfl⟩

/-- C1: on the tree built from `[6,4,7,2,5,8]`, the key 99 is absent
(`Search` reports absence), yet `Delete 99` does not return a
`KeyNotFound` result with the tree unchanged: the source dereferences the
nil result of the search (`n.Left`), modelled here by `deleteOp`
returning `none` (panic) instead of a state. -/
theorem C1_delete_absent_key_panics :
    searchOp tree7 99 = some none ∧ deleteOp tree7 99 = none :=
  ⟨rfl, rfl⟩

/-- C2: on the tree built from `[6,4,7,2,5,8]`, `Succ 7` returns node 2 —
the node holding 7 itself — because the source computes `n.min()` (minimum
of the subtree rooted at `n`) instead of `subtreeMin(n.Right)`, which is
node 5 with key 8; symmetrically `Pred 4` computes `n.max()` and returns
node 4 with key 5 instead of `subtreeMax(n.Left)`, which is node 3 with
key 2. -/
theorem C2_succ_pred_use_wrong_subtree :
    succOp tree7 7 = some (some 2) ∧
    tree7.mem 2 = some ⟨7, some 0, none, some 5⟩ ∧
    minLoop tree7.mem (tree7.next + 1) (some 5) = some (some 5) ∧
    tree7.mem 5 = some ⟨8, some 2, none, none⟩ ∧
    predOp tree7 4 = some (some 4) ∧
    tree7.mem 4 = some ⟨5, some 1, none, none⟩ ∧
    maxLoop tree7.mem (tree7.next + 1) (some 3) = some (some 3) ∧
    tree7.mem 3 = some ⟨2, some 1, none, none⟩ :=
  ⟨rfl, rfl, rfl, rfl, rfl, rfl, rfl, rfl⟩

end BSTGo

namespace BSTGo

open ITree

/-- C3: after any successful sequence of `Insert`/`Delete` calls starting
from the empty tree, the preorder walk of the heap enumerates the reachable
nodes, and every reachable node's left (resp. right) subtree holds only
keys strictly below (resp. at least) the node's own key — the "ties go
right" BST ordering invariant. -/
theorem C3_bst_invariant_after_runs {ops : List Op} {t : BT}
    (hrun : runOps emptyBT ops = some t) :
    ∃ L, preIdsF t.mem (t.next + 1) t.root = some L ∧
      ∀ i ∈ L, ∀ n : GNode, t.mem i = some n →
        ∃ kl kr, inorderF t.mem (t.next + 1) n.left = some kl ∧
          inorderF t.mem (t.next + 1) n.right = some kr ∧
          (∀ x ∈ kl, x < n.key) ∧ (∀ x ∈ kr, n.key ≤ x) := by
  obtain ⟨T, hwft⟩ := runOps_wft hrun
  obtain ⟨hroot, hrep, hnd, hbd, hbst⟩ := hwft
  have hsz : size T < t.next + 1 := Nat.lt_succ_of_le (size_le_of_nodup_lt hnd hbd)
  refine ⟨preIds T, ?_, ?_⟩
  · rw [hroot]
    exact preIdsF_sim T none _ hrep hsz
  · intro i hi n hn
    exact rep_bst_ok hrep hbst hsz i ((preIds_perm_ids T).mem_iff.1 hi) n hn

def c3ops : List Op := [.ins 2, .ins 1, .ins 3, .del 2]

def c3tree : BT := (runOps emptyBT c3ops).getD emptyBT

theorem C3_witness :
    runOps emptyBT c3ops = some c3tree ∧
    (∃ L, preIdsF c3tree.mem (c3tree.next + 1) c3tree.root = some L ∧
      ∀ i ∈ L, ∀ n : GNode, c3tree.mem i = some n →
        ∃ kl kr, inorderF c3tree.mem (c3tree.next + 1) n.left = some kl ∧
          inorderF c3tree.mem (c3tree.next + 1) n.right = some kr ∧
          (∀ x ∈ kl, x < n.key) ∧ (∀ x ∈ kr, n.key ≤ x)) :=
  ⟨rfl, @C3_bst_invariant_after_runs c3ops c3tree rfl⟩

/-- C4: after any successful sequence of `Insert`/`Delete` calls starting
from the empty tree, the preorder walk terminates without revisiting a
node (no cycles, no sharing), the root's parent pointer is absent, and
every child pointer is matched by the child's parent back-pointer. -/
theorem C4_parent_consistency_after_runs {ops : List Op} {t : BT}
    (hrun : runOps emptyBT ops = some t) :
    ∃ L, preIdsF t.mem (t.next + 1) t.root = some L ∧ L.Nodup ∧
      (∀ rt, t.root = some rt → ∃ rn, t.mem rt = some rn ∧ rn.parent = none) ∧
      ∀ i ∈ L, ∀ n : GNode, t.mem i = some n →
        (∀ c, n.left = some c → ∃ cn, t.mem c = some cn ∧ cn.parent = some i) ∧
        (∀ c, n.right = some c → ∃ cn, t.mem c = some cn ∧ cn.parent = some i) := by
  obtain ⟨T, hwft⟩ := runOps_wft hrun
  obtain ⟨hroot, hrep, hnd, hbd, hbst⟩ := hwft
  have hsz : size T < t.next + 1 := Nat.lt_succ_of_le (size_le_of_nodup_lt hnd hbd)
  refine ⟨preIds T, ?_, ?_, ?_, ?_⟩
  · rw [hroot]
    exact preIdsF_sim T none _ hrep hsz
  · exact (preIds_perm_ids T).nodup_iff.2 hnd
  · intro rt hrt
    rw [hroot] at hrt
    cases T with
    | leaf => exact absurd hrt (by simp [rootIdO])
    | node i k l r =>
        have hir : i = rt := Option.some.inj hrt
        cases hrep with
        | node _ _ _ _ _ hrec hl hr => exact ⟨_, hir ▸ hrec, rfl⟩
  · intro i hi n hn
    exact rep_parent_ok hrep i ((preIds_perm_ids T).mem_iff.1 hi) n hn

def c4ops : List Op := [.ins 5, .ins 3, .ins 9, .ins 7, .del 5]

def c4tree : BT := (runOps emptyBT c4ops).getD emptyBT

theorem C4_witness :
    runOps emptyBT c4ops = some c4tree ∧
    (∃ L, preIdsF c4tree.mem (c4tree.next + 1) c4tree.root = some L ∧ L.Nodup ∧
      (∀ rt, c4tree.root = some rt → ∃ rn, c4tree.mem rt = some rn ∧ rn.parent = none) ∧
      ∀ i ∈ L, ∀ n : GNode, c4tree.mem i = some n →
        (∀ c, n.left = some c → ∃ cn, c4tree.mem c = some cn ∧ cn.parent = some i) ∧
        (∀ c, n.right = some c → ∃ cn, c4tree.mem c = some cn ∧ cn.parent = some i)) :=
  ⟨rfl, @C4_parent_consistency_after_runs c4ops c4tree rfl⟩

theorem runOps_ins_total : ∀ (ks : List Int) (t : BT) (T : ITree), WFT t T →
    ∃ t' T', runOps t (ks.map Op.ins) = some t' ∧ WFT t' T' := by
  intro ks
  induction ks with
  | nil => intro t T h; exact ⟨t, T, rfl, h⟩
  | cons k ks ih =>
      intro t T h
      obtain ⟨t1, hop, hw1, -⟩ := insertOp_sim k h
      obtain ⟨t', T', hrun, hw⟩ := ih t1 _ hw1
      refine ⟨t', T', ?_, hw⟩
      show runOps t (Op.ins k :: ks.map Op.ins) = some t'
      simp only [runOps, applyOp]
      rw [hop]
      exact hrun

/-- C5: every sequence made only of `Insert` calls succeeds, and the
`InOrderWalk` of the resulting tree is a non-decreasing list of keys. -/
theorem C5_inorder_sorted_after_inserts (ks : List Int) :
    ∃ t L, runOps emptyBT (ks.map Op.ins) = some t ∧ inorderW t = some L ∧
      List.Pairwise (· ≤ ·) L := by
  obtain ⟨t, T, hrun, hw⟩ := runOps_ins_total ks emptyBT .leaf wft_empty
  obtain ⟨hroot, hrep, hnd, hbd, hbst⟩ := hw
  have hsz : size T < t.next + 1 := Nat.lt_succ_of_le (size_le_of_nodup_lt hnd hbd)
  refine ⟨t, keysOf T, hrun, ?_, keys_pairwise_le hbst⟩
  show inorderF t.mem (t.next + 1) t.root = some (keysOf T)
  rw [hroot]
  exact inorderF_sim T none _ hrep hsz

/-- C8: if a successful run from the empty tree contains `Insert k` and no
later `Delete k`, then `Search k` on the final tree returns a node whose
key equals `k`. -/
theorem C8_search_finds_undeleted_insert {ops1 ops2 : List Op} {k : Int} {t : BT}
    (hrun : runOps emptyBT (ops1 ++ Op.ins k :: ops2) = some t)
    (hnodel : Op.del k ∉ ops2) :
    ∃ nid n, searchOp t k = some (some nid) ∧ t.mem nid = some n ∧ n.key = k := by
  rw [runOps_append] at hrun
  cases h1 : runOps emptyBT ops1 with
  | none => rw [h1] at hrun; cases hrun
  | some t1 =>
      rw [h1] at hrun
      obtain ⟨T1, hw1⟩ := runOps_wft h1
      have hrun1 : runOps t1 (Op.ins k :: ops2) = some t := hrun
      have hstep : runOps t1 (Op.ins k :: ops2) =
          match applyOp t1 (Op.ins k) with
          | none => none
          | some t2 => runOps t2 ops2 := rfl
      rw [hstep] at hrun1
      cases h2 : applyOp t1 (Op.ins k) with
      | none => rw [h2] at hrun1; cases hrun1
      | some t2 =>
          rw [h2] at hrun1
          have hrun : runOps t2 ops2 = some t := hrun1
          obtain ⟨T2, hw2, -, hins⟩ := applyOp_sim hw1 h2
          have hk2 : k ∈ keysOf T2 := hins k rfl
          obtain ⟨T3, hw3, hkeep⟩ := runOps_wft_keys ops2 t2 T2 hw2 t hrun
          have hk3 : k ∈ keysOf T3 :=
            hkeep k hk2 (fun k' hmem e => hnodel (e.symm ▸ hmem))
          obtain ⟨hroot, hrep, hnd, hbd, hbst⟩ := hw3
          obtain ⟨nid, hnid⟩ := searchAbs_isSome_of_mem hbst hk3
          obtain ⟨rec, hrec, hkey⟩ := searchAbs_found_key hrep hnid
          have hsz : size T3 < t.next + 1 :=
            Nat.lt_succ_of_le (size_le_of_nodup_lt hnd hbd)
          refine ⟨nid, rec, ?_, hrec, hkey⟩
          show searchLoop t.mem k (t.next + 1) t.root = some (some nid)
          rw [hroot, searchLoop_sim k T3 none _ hrep hsz, hnid]

def c8pre : List Op := [.ins 1]

def c8post : List Op := [.del 1]

def c8tree : BT := (runOps emptyBT (c8pre ++ Op.ins 5 :: c8post)).getD emptyBT

theorem C8_witness :
    runOps emptyBT (c8pre ++ Op.ins 5 :: c8post) = some c8tree ∧
    Op.del 5 ∉ c8post ∧
    (∃ nid n, searchOp c8tree 5 = some (some nid) ∧ c8tree.mem nid = some n ∧
      n.key = 5) :=
  ⟨rfl, by decide,
    @C8_search_finds_undeleted_insert c8pre c8post 5 c8tree rfl (by decide)⟩

/-- C9: inserting a key that is absent from a well-formed tree and then
deleting that same key restores the original `InOrderWalk` output. -/
theorem C9_insert_delete_roundtrip {t : BT} {T : ITree} {key : Int}
    (h : WFT t T) (hnin : key ∉ keysOf T) :
    ∃ t1 t2, insertOp t key = some t1 ∧ deleteOp t1 key = some t2 ∧
      inorderW t2 = inorderW t := by
  obtain ⟨t1, hop1, hw1, -⟩ := insertOp_sim key h
  have hs : searchAbs key (insertAbs key t.next T) = some t.next :=
    searchAbs_insertAbs hnin
  obtain ⟨t2, hop2, hw2, -⟩ := deleteOp_sim key hw1 hs
  rw [deleteAbs_insertAbs hnin] at hw2
  obtain ⟨hroot2, hrep2, hnd2, hbd2, -⟩ := hw2
  obtain ⟨hroot, hrep, hnd, hbd, -⟩ := h
  refine ⟨t1, t2, hop1, hop2, ?_⟩
  have h1 : inorderW t2 = some (keysOf T) := by
    show inorderF t2.mem (t2.next + 1) t2.root = some (keysOf T)
    rw [hroot2]
    exact inorderF_sim T none _ hrep2
      (Nat.lt_succ_of_le (size_le_of_nodup_lt hnd2 hbd2))
  have h2 : inorderW t = some (keysOf T) := by
    show inorderF t.mem (t.next + 1) t.root = some (keysOf T)
    rw [hroot]
    exact inorderF_sim T none _ hrep
      (Nat.lt_succ_of_le (size_le_of_nodup_lt hnd hbd))
  rw [h1, h2]

theorem C9_witness :
    ∃ t1 t2, insertOp emptyBT 5 = some t1 ∧ deleteOp t1 5 = some t2 ∧
      inorderW t2 = inorderW emptyBT :=
  C9_insert_delete_roundtrip wft_empty (by simp [keysOf])

end BSTGo
